import Mathlib

/-!
Verification development for the Spectral Compressor repository
(`src/processor.cpp`, `src/processor.h`).  The STFT streaming driver
(`SpectralCompressorProcessor::do_stft`), the per-block compressor update
(`update_compressors`), the working-set rebuild
(`update_and_swap_process_data`), the sidechain threshold accumulation and
the per-bin compression loop of `processBlock` are embedded as executable
Lean functions.  Audio samples are parametrised over the sample type `α`
(the driver only moves samples around and emits `0` for silence; the
overlap-add uses `+` and scaling uses `*`), so that the driver theorems are
exact for the float program's data flow and witnesses can evaluate at
`α := ℤ`.  Decibel / logarithm formulas use the reals; the FFT itself and
the envelope follower of `juce::dsp::Compressor` are kept abstract (they
enter only through opaque function parameters).
-/

set_option maxHeartbeats 1600000
set_option linter.unusedSectionVars false

namespace SpectralCompressor

/-- Modelled from the spec: the repository's `src/ring.h` (the `RingBuffer<float>`
class used throughout `processor.cpp`) is not present under `src/`; only its call
sites are.  Following spec §4.1 (CircularStreamBuffer): a fixed backing store of
length `capacity` and a single write cursor taken modulo the capacity. -/
structure RingBuffer (α : Type) where
  buf : List α
  pos : Nat

namespace RingBuffer

variable {α : Type} [Zero α] [Add α] [Mul α]

/-- The fixed capacity of the ring: the length of its backing store. -/
def cap (r : RingBuffer α) : Nat := r.buf.length

/-- Write a single sample at the cursor and advance the cursor by one
(modulo the capacity). -/
def writeOne (r : RingBuffer α) (x : α) : RingBuffer α :=
  { buf := r.buf.set (r.pos % r.cap) x, pos := (r.pos + 1) % r.cap }

/-- Ring operation `read_n_from(src, n)`: copy `n` samples from the host into the ring,
advancing the cursor.  The C++ does this with at most two `memcpy`s; the
model writes the samples one at a time, which has the same effect. -/
def read_n_from (r : RingBuffer α) (src : List α) : RingBuffer α :=
  src.foldl writeOne r

/-- Read the single sample under the cursor (optionally zeroing it to
prevent stale reuse) and advance the cursor. -/
def readOne (r : RingBuffer α) (clear : Bool) : RingBuffer α × α :=
  (⟨if clear then r.buf.set (r.pos % r.cap) 0 else r.buf, (r.pos + 1) % r.cap⟩,
   r.buf.getD (r.pos % r.cap) 0)

/-- Ring operation `copy_n_to(dst, n, clear)`: copy `n` samples out of the ring for the
host, optionally zeroing them after the read, advancing the cursor. -/
def copy_n_to : RingBuffer α → Nat → Bool → RingBuffer α × List α
  | r, 0, _ => (r, [])
  | r, n + 1, clear =>
      let p := r.readOne clear
      let q := copy_n_to p.1 n clear
      (q.1, p.2 :: q.2)

/-- Ring operation `copy_last_n_to(dst, n)`: snapshot of the most recent `n` samples
(chronological order, oldest first), without disturbing the cursor. -/
def copy_last_n_to (r : RingBuffer α) (n : Nat) : List α :=
  (List.range n).map (fun i => r.buf.getD ((r.pos + r.cap - n + i) % r.cap) 0)

/-- Ring operation `add_n_from_in_place(src, n, gain)`: overlap-accumulate `gain * src[i]`
into the `n` slots starting at the cursor, without advancing the cursor. -/
def add_n_from_in_place (r : RingBuffer α) (src : List α) (gain : α) : RingBuffer α :=
  { r with
    buf := (List.range src.length).foldl
      (fun b j =>
        b.set ((r.pos + j) % r.cap) (b.getD ((r.pos + j) % r.cap) 0 + gain * src.getD j 0))
      r.buf }

/-- Ring operation `read_n_from_in_place(src, n)`: overwrite the `n` slots starting at the
cursor with `src`, without advancing the cursor (used by the bypassed path). -/
def read_n_from_in_place (r : RingBuffer α) (src : List α) : RingBuffer α :=
  { r with
    buf := (List.range src.length).foldl
      (fun b j => b.set ((r.pos + j) % r.cap) (src.getD j 0)) r.buf }

end RingBuffer

/-- One `juce::dsp::Compressor<float>` of the bank, abstracted to its
configuration and envelope-follower memory.  `threshold` is in dBFS and is
real-valued because the static threshold curve involves a base-2 logarithm.
The envelope memory is kept as a single abstract rational. -/
structure Compressor where
  ratio : ℚ
  attackMs : ℚ
  releaseMs : ℚ
  sampleRate : ℚ
  threshold : ℝ
  envelope : ℚ

/-- A default-constructed compressor (what `std::vector::resize` appends). -/
noncomputable def compressorDefault : Compressor :=
  { ratio := 1, attackMs := 0, releaseMs := 0, sampleRate := 0, threshold := 0, envelope := 0 }

/-- The `ProcessData` working set of `src/processor.h`, for one representative
channel (the driver treats all channels identically and in lockstep, so one
channel per ring suffices for the per-channel claims).  The sidechain
threshold accumulator's arithmetic is analysed by `accumulate_sidechain`
below; here it is carried as data. -/
structure ProcessData (α : Type) where
  fft_window_size : Nat
  num_windows_processed : Nat
  fft_scratch_buffer : List α
  spectral_compressors : List Compressor
  spectral_compressor_sidechain_thresholds : List ℚ
  input_ring_buffers : RingBuffer α
  output_ring_buffers : RingBuffer α
  sidechain_ring_buffers : RingBuffer α

section Driver

variable {α : Type} [Zero α] [Add α] [Mul α]

/-- The synchronised per-chunk bookkeeping of `do_stft` (lines 641–660 and
676–693 of `processor.cpp`): copy the chunk from the host into the input
ring; copy a chunk of matured ring output to the host if at least
`windowing_overlap_times` windows have been processed, otherwise emit
silence (leaving the output ring untouched); if sidechaining is active, also
copy the sidechain chunk into the sidechain ring.  Returns the updated
working set and the host output chunk. -/
def feedChunk (ov : Nat) (scActive : Bool) (pd : ProcessData α)
    (inChunk scChunk : List α) : ProcessData α × List α :=
  let inRing := pd.input_ring_buffers.read_n_from inChunk
  let outStep :=
    if pd.num_windows_processed ≥ ov then
      pd.output_ring_buffers.copy_n_to inChunk.length true
    else
      (pd.output_ring_buffers, List.replicate inChunk.length 0)
  let scRing :=
    if scActive then pd.sidechain_ring_buffers.read_n_from scChunk
    else pd.sidechain_ring_buffers
  ({ pd with
      input_ring_buffers := inRing
      output_ring_buffers := outStep.1
      sidechain_ring_buffers := scRing },
   outStep.2)

/-- The windowed portion of `do_stft` (lines 664–696): `k` iterations, each
invoking the window processor `P`, incrementing `num_windows_processed`, and
then feeding/copying the next chunk of up to `hop` samples.  The C++ drives
this loop with `windows_to_process` and `sample_buffer_offset`; the model
passes the remaining block suffix explicitly. -/
def doWindows (ov : Nat) (scActive : Bool) (P : ProcessData α → ProcessData α) (hop : Nat) :
    Nat → ProcessData α → List α → List α → ProcessData α × List α
  | 0, pd, _, _ => (pd, [])
  | k + 1, pd, inp, sci =>
      let pd1 := P pd
      let pd2 := { pd1 with num_windows_processed := pd1.num_windows_processed + 1 }
      let fed := feedChunk ov scActive pd2 (inp.take hop) (sci.take hop)
      let rest := doWindows ov scActive P hop k fed.1 (inp.drop hop) (sci.drop hop)
      (rest.1, fed.2 ++ rest.2)

/-- The driver `SpectralCompressorProcessor::do_stft` (lines 592–699): computes the
hop `windowing_interval = fft_window_size / windowing_overlap_times`, first
consumes `already_processed_samples = min(N, (hop - pos % hop) % hop)` to
reach the next hop boundary, then `ceil((N - already)/hop)` full-hop
iterations, each invoking the window processor `P` once.  The C++ computes
the ceiling with `std::ceil` on `float`; the model uses the exact ceiling
`(m + hop - 1) / hop`, and `std::min` is written as an `if`. -/
def do_stft (ov : Nat) (scActive : Bool) (P : ProcessData α → ProcessData α)
    (pd : ProcessData α) (input sidechain : List α) : ProcessData α × List α :=
  let hop := pd.fft_window_size / ov
  let N := input.length
  let align := (hop - pd.input_ring_buffers.pos % hop) % hop
  let already := if N ≤ align then N else align
  let fed :=
    if 0 < already then
      feedChunk ov scActive pd (input.take already) (sidechain.take already)
    else (pd, [])
  let k := (N - already + hop - 1) / hop
  let rest := doWindows ov scActive P hop k fed.1 (input.drop already) (sidechain.drop already)
  (rest.1, fed.2 ++ rest.2)

/-- Driving the processor over a sequence of host blocks (each block an
input/sidechain pair), concatenating the produced output. -/
def runBlocks (ov : Nat) (scActive : Bool) (P : ProcessData α → ProcessData α) :
    ProcessData α → List (List α × List α) → ProcessData α × List α
  | pd, [] => (pd, [])
  | pd, b :: bs =>
      let r1 := do_stft ov scActive P pd b.1 b.2
      let r2 := runBlocks ov scActive P r1.1 bs
      (r2.1, r1.2 ++ r2.2)

/-- The per-sample decomposition of `feedChunk`: push one input sample, emit
one output sample (ring output when the gate is open, silence otherwise),
push one sidechain sample.  Used to state and prove the chunking-independence
of the driver; not itself part of the source. -/
def feedOne (ov : Nat) (scActive : Bool) (pd : ProcessData α) (x s : α) :
    ProcessData α × α :=
  ({ pd with
      input_ring_buffers := pd.input_ring_buffers.writeOne x
      output_ring_buffers :=
        if pd.num_windows_processed ≥ ov then (pd.output_ring_buffers.readOne true).1
        else pd.output_ring_buffers
      sidechain_ring_buffers :=
        if scActive then pd.sidechain_ring_buffers.writeOne s
        else pd.sidechain_ring_buffers },
   if pd.num_windows_processed ≥ ov then (pd.output_ring_buffers.readOne true).2 else 0)

/-- Folding `feedOne` over a list of input/sidechain sample pairs. -/
def feedSamples (ov : Nat) (scActive : Bool) :
    ProcessData α → List (α × α) → ProcessData α × List α
  | pd, [] => (pd, [])
  | pd, q :: qs =>
      let f := feedOne ov scActive pd q.1 q.2
      let rest := feedSamples ov scActive f.1 qs
      (rest.1, f.2 :: rest.2)

/-- The canonical per-sample semantics of the driver: before consuming a
sample, if the input-ring cursor sits on a hop boundary, invoke the window
processor and count the window; then feed the sample through `feedOne`. -/
def stepOne (ov : Nat) (scActive : Bool) (P : ProcessData α → ProcessData α) (hop : Nat)
    (pd : ProcessData α) (q : α × α) : ProcessData α × α :=
  let pd0 :=
    if pd.input_ring_buffers.pos % hop = 0 then
      let pd1 := P pd
      { pd1 with num_windows_processed := pd1.num_windows_processed + 1 }
    else pd
  feedOne ov scActive pd0 q.1 q.2

/-- Folding `stepOne` over a list of input/sidechain sample pairs. -/
def runSamples (ov : Nat) (scActive : Bool) (P : ProcessData α → ProcessData α) (hop : Nat) :
    ProcessData α → List (α × α) → ProcessData α × List α
  | pd, [] => (pd, [])
  | pd, q :: qs =>
      let f := stepOne ov scActive P hop pd q
      let rest := runSamples ov scActive P hop f.1 qs
      (rest.1, f.2 :: rest.2)

end Driver

/-- A freshly rebuilt working set, as `update_and_swap_process_data` produces
it for window size `W` (one representative channel, integer samples for
concrete evaluation): zeroed rings of capacity `W` with the cursor at 0, no
windows processed, an empty compressor bank (the driver never reads it). -/
def freshWorkingSet (W : Nat) : ProcessData ℤ :=
  { fft_window_size := W
    num_windows_processed := 0
    fft_scratch_buffer := List.replicate (2 * W) 0
    spectral_compressors := []
    spectral_compressor_sidechain_thresholds := []
    input_ring_buffers := ⟨List.replicate W 0, 0⟩
    output_ring_buffers := ⟨List.replicate W 0, 0⟩
    sidechain_ring_buffers := ⟨List.replicate W 0, 0⟩ }

/-- A window-processor stand-in used in concrete counterexamples: deposits a
window of ones into the output ring at the cursor, with the shape of the
overlap-add deposit (`add_n_from_in_place`) that `processBlock` performs.
Like the real window processor it spreads energy across the whole deposited
window (the inverse FFT of a compressed spectrum is in general nonzero
everywhere), touches neither the input ring nor `num_windows_processed`,
and leaves the window size alone. -/
def depositOnes (pd : ProcessData ℤ) : ProcessData ℤ :=
  { pd with
    output_ring_buffers :=
      pd.output_ring_buffers.add_n_from_in_place
        (List.replicate pd.fft_window_size 1) 1 }

section Models

variable {α : Type} [Zero α] [Add α] [Mul α]

/-- An index-carrying map, the functional rendering of the C++
`for (compressor_idx = 0; ...)` loops that update one element per index. -/
def mapWithIndex {β γ : Type} (f : Nat → β → γ) : Nat → List β → List γ
  | _, [] => []
  | i, c :: cs => f i c :: mapWithIndex f (i + 1) cs

/-- Vector resize semantics (`std::vector::resize`): keep the existing prefix, append default-constructed
elements up to the new size. -/
def listResize {β : Type} (l : List β) (n : Nat) (dflt : β) : List β :=
  l.take n ++ List.replicate (n - l.length) dflt

/-- The method `SpectralCompressorProcessor::update_compressors` (lines 509–589): set
ratio, attack and release on every bin compressor and `prepare` it at the
effective sample rate `getSampleRate() / (fft_window_size /
windowing_overlap_times)` (exact division in `double`; `prepare` resets the
envelope follower, as the code's TODO notes); when the sidechain is inactive,
set each compressor's threshold on the pink-noise curve
`(base_threshold_dbfs + 3) − 3·log2(frequency + 2)` with
`frequency = (sample_rate / fft_window_size) · bin_idx`; recompute the makeup
gain `1 / windowing_overlap_times`, times the auto-makeup factor
(`(ratio + 24)/25` with sidechain, `log10(ratio·100)·200 − 399` without). -/
noncomputable def update_compressors (sample_rate : ℚ) (ov : Nat)
    (ratio attackMs releaseMs : ℚ) (sidechainActive autoMakeup : Bool)
    (pd : ProcessData α) : ProcessData α × ℝ :=
  let effective_sample_rate : ℚ :=
    sample_rate / ((pd.fft_window_size : ℚ) / (ov : ℚ))
  let cs1 := pd.spectral_compressors.map fun c =>
    { c with
      ratio := ratio, attackMs := attackMs, releaseMs := releaseMs,
      sampleRate := effective_sample_rate, envelope := 0 }
  let frequency_increment : ℚ := sample_rate / (pd.fft_window_size : ℚ)
  let cs2 :=
    if sidechainActive then cs1 else
      mapWithIndex
        (fun compressor_idx c =>
          let bin_idx : Nat := compressor_idx + 1
          let frequency : ℚ := frequency_increment * (bin_idx : ℚ)
          let octave : ℝ := Real.logb 2 ((frequency : ℝ) + 2)
          { c with threshold := ((0 : ℝ) + 3) - 3 * octave })
        0 cs1
  let makeup_gain0 : ℝ := 1 / (ov : ℝ)
  let makeup_gain : ℝ :=
    if autoMakeup then
      if sidechainActive then makeup_gain0 * (((ratio : ℝ) + 24) / 25)
      else makeup_gain0 * (Real.logb 10 ((ratio : ℝ) * 100) * 200 - 399)
    else makeup_gain0
  ({ pd with spectral_compressors := cs2 }, makeup_gain)

/-- The processor state around the working set: the
`compressor_settings_changed` one-shot flag and the computed `makeup_gain`
(both members of `SpectralCompressorProcessor`). -/
structure PluginState (α : Type) where
  pd : ProcessData α
  compressor_settings_changed : Bool
  makeup_gain : ℝ

/-- The compare-and-exchange prelude of `processBlock` (lines 296–304): if
the settings-changed flag is set, clear it and run `update_compressors` just
before processing; otherwise leave everything untouched. -/
noncomputable def processBlockPrelude (sample_rate : ℚ) (ov : Nat)
    (ratio attackMs releaseMs : ℚ) (sidechainActive autoMakeup : Bool)
    (s : PluginState α) : PluginState α :=
  if s.compressor_settings_changed then
    let upd := update_compressors sample_rate ov ratio attackMs releaseMs
      sidechainActive autoMakeup s.pd
    { pd := upd.1, compressor_settings_changed := false, makeup_gain := upd.2 }
  else s

/-- The no-op stage of `processBlockBypassed` (lines 274–290): copy the last
`windowing_interval` input samples into the scratch buffer, then write them
into the output ring in place. -/
def bypass_fn (ov : Nat) (pd : ProcessData α) : ProcessData α :=
  let windowing_interval := pd.fft_window_size / ov
  let scratch := pd.input_ring_buffers.copy_last_n_to windowing_interval
  { pd with
    fft_scratch_buffer := scratch ++ pd.fft_scratch_buffer.drop windowing_interval
    output_ring_buffers := pd.output_ring_buffers.read_n_from_in_place scratch }

/-- The method `SpectralCompressorProcessor::processBlockBypassed` (lines 265–291): the
same ring-buffer bookkeeping as `processBlock`, with the copy-through stage
as the window processor; it performs no settings check and never touches the
compressors, the flag or the makeup gain. -/
def processBlockBypassed (ov : Nat) (scActive : Bool) (s : PluginState α)
    (input sidechain : List α) : PluginState α × List α :=
  let r := do_stft ov scActive (bypass_fn ov) s.pd input sidechain
  ({ s with pd := r.1 }, r.2)

/-- The sidechain-threshold accumulation of `processBlock` (lines 313–342):
for each channel, add each usable bin's sidechain magnitude into the per-bin
accumulator.  The magnitude `|FFT bin|` is abstracted as
`mag : channel → compressor_idx → ℝ`, since the FFT itself is floating
point. -/
def accumulate_sidechain (channels : Nat) (mag : Nat → Nat → ℝ)
    (acc : List ℝ) : List ℝ :=
  (List.range channels).foldl
    (fun a channel =>
      mapWithIndex (fun compressor_idx v => v + mag channel compressor_idx) 0 a)
    acc

/-- Setting the thresholds from the accumulated sidechain magnitudes
(lines 344–355): each compressor's threshold becomes its accumulated value
divided by the channel count, and the accumulator entry is reset to zero. -/
noncomputable def set_thresholds_from_sidechain (channels : Nat) (acc : List ℝ)
    (cs : List Compressor) : List Compressor × List ℝ :=
  (mapWithIndex
      (fun compressor_idx c =>
        { c with threshold := acc.getD compressor_idx 0 / (channels : ℝ) })
      0 cs,
   List.replicate acc.length 0)

/-- The per-bin compression loop of `processBlock` (lines 382–406): for each
compressor index, bin `compressor_idx + 1` of the FFT buffer is scaled —
both real and imaginary parts — by `compressed_magnitude / magnitude` when
the magnitude is nonzero and by `1.0` otherwise.  The magnitude (`std::abs`
of the complex bin) and the compressor's `processSample` (float envelope
ballistics) are abstracted as function parameters. -/
def compress_bins (mag : ℚ × ℚ → ℚ) (process : Nat → ℚ → ℚ)
    (num_compressors : Nat) (fft_buffer : List (ℚ × ℚ)) : List (ℚ × ℚ) :=
  (List.range num_compressors).foldl
    (fun buf compressor_idx =>
      let bin_idx := compressor_idx + 1
      let z := buf.getD bin_idx (0, 0)
      let magnitude := mag z
      let compressed_magnitude := process compressor_idx magnitude
      let compression_multiplier :=
        if magnitude ≠ 0 then compressed_magnitude / magnitude else 1
      buf.set bin_idx (compression_multiplier * z.1, compression_multiplier * z.2))
    fft_buffer

/-- The method `SpectralCompressorProcessor::update_and_swap_process_data`
(lines 463–507): rebuild the inactive working set for the current FFT
order — window size `1 << fft_order`, `num_windows_processed = 0`, a scratch
buffer of `2 · window_size`, `window_size / 2` compressors
(`std::vector::resize`), a matching sidechain accumulator, and the three
rings resized to the window size (modelled as fresh zeroed rings with the
cursor at 0: the spec rebuilds the working set wholesale) — then set
`compressor_settings_changed` so the compressors are reinitialised on the
next processing cycle. -/
noncomputable def update_and_swap_process_data (fft_order : Nat)
    (s : PluginState α) : PluginState α :=
  let fft_window_size := 2 ^ fft_order
  { pd :=
      { fft_window_size := fft_window_size
        num_windows_processed := 0
        fft_scratch_buffer := List.replicate (fft_window_size * 2) 0
        spectral_compressors :=
          listResize s.pd.spectral_compressors (fft_window_size / 2) compressorDefault
        spectral_compressor_sidechain_thresholds :=
          listResize s.pd.spectral_compressor_sidechain_thresholds
            (fft_window_size / 2) 0
        input_ring_buffers := ⟨List.replicate fft_window_size 0, 0⟩
        output_ring_buffers := ⟨List.replicate fft_window_size 0, 0⟩
        sidechain_ring_buffers := ⟨List.replicate fft_window_size 0, 0⟩ }
    compressor_settings_changed := true
    makeup_gain := s.makeup_gain }

/-- The latency/double-buffer interaction (`processor.cpp` lines 138–150 and
the `update_and_swap_process_data` contract of `processor.h` lines 99–106):
the window size of the working set active on the real-time thread, the
window size of a pending (built but not yet swapped-in) working set, and the
latency last reported through `setLatencySamples`. -/
structure LatencyModel where
  activeWindowSize : Nat
  pendingWindowSize : Option Nat
  reportedLatency : Nat
deriving DecidableEq, Repr

/-- The `process_data_updater` async callback (lines 138–143): build the
pending working set for the new FFT order, then immediately report the new
window size `1 << fft_order` as the latency — before the real-time thread
has swapped the pending set in. -/
def applyFftOrderChange (fft_order : Nat) (m : LatencyModel) : LatencyModel :=
  { m with
    pendingWindowSize := some (2 ^ fft_order)
    reportedLatency := 2 ^ fft_order }

/-- The real-time thread's `process_data.get()` at the start of a block
(`processor.h` lines 99–106): swap in the pending working set if one is
ready; reported latency is unchanged by the swap itself. -/
def applyAudioBlockSwap (m : LatencyModel) : LatencyModel :=
  match m.pendingWindowSize with
  | some w =>
      { activeWindowSize := w, pendingWindowSize := none,
        reportedLatency := m.reportedLatency }
  | none => m

/-- The two events that touch the latency state. -/
inductive LatencyEvent where
  | fftOrderChange (order : Nat)
  | audioBlock
deriving DecidableEq, Repr

/-- Apply one latency event. -/
def applyLatencyEvent (m : LatencyModel) : LatencyEvent → LatencyModel
  | .fftOrderChange order => applyFftOrderChange order m
  | .audioBlock => applyAudioBlockSwap m

/-- Run a sequence of latency events. -/
def runLatencyEvents (m : LatencyModel) (evs : List LatencyEvent) : LatencyModel :=
  evs.foldl applyLatencyEvent m

/-- The latency consistency that actually holds: the reported latency equals
the active working set's window size, except while a rebuilt working set is
pending, when it equals the pending one's. -/
def LatencyConsistent (m : LatencyModel) : Prop :=
  (m.pendingWindowSize = none → m.reportedLatency = m.activeWindowSize) ∧
  (∀ w, m.pendingWindowSize = some w → m.reportedLatency = w)

end Models

/-! ### Bookkeeping lemmas for the ring buffer and the driver -/

namespace RingBuffer

variable {α : Type} [Zero α] [Add α] [Mul α]

@[simp] theorem cap_writeOne (r : RingBuffer α) (x : α) : (r.writeOne x).cap = r.cap := by
  simp [writeOne, cap]

theorem pos_writeOne (r : RingBuffer α) (x : α) : (r.writeOne x).pos = (r.pos + 1) % r.cap :=
  rfl

theorem pos_lt_writeOne (r : RingBuffer α) (x : α) (h : 0 < r.cap) :
    (r.writeOne x).pos < (r.writeOne x).cap := by
  simpa [writeOne, cap] using Nat.mod_lt _ (by simpa [cap] using h)

@[simp] theorem read_n_from_nil (r : RingBuffer α) : r.read_n_from [] = r := rfl

theorem read_n_from_cons (r : RingBuffer α) (x : α) (xs : List α) :
    r.read_n_from (x :: xs) = (r.writeOne x).read_n_from xs := rfl

@[simp] theorem cap_read_n_from (r : RingBuffer α) (src : List α) :
    (r.read_n_from src).cap = r.cap := by
  induction src generalizing r with
  | nil => rfl
  | cons x xs ih => rw [read_n_from_cons, ih, cap_writeOne]

theorem pos_read_n_from (r : RingBuffer α) (src : List α) (h : r.pos < r.cap) :
    (r.read_n_from src).pos = (r.pos + src.length) % r.cap := by
  induction src generalizing r with
  | nil => simpa using (Nat.mod_eq_of_lt h).symm
  | cons x xs ih =>
      have hcap : 0 < r.cap := Nat.lt_of_le_of_lt (Nat.zero_le _) h
      rw [read_n_from_cons, ih _ (r.pos_lt_writeOne x hcap)]
      simp [writeOne, cap, Nat.mod_add_mod]
      ring_nf

theorem pos_lt_read_n_from (r : RingBuffer α) (src : List α) (h : r.pos < r.cap) :
    (r.read_n_from src).pos < (r.read_n_from src).cap := by
  have hcap : 0 < r.cap := Nat.lt_of_le_of_lt (Nat.zero_le _) h
  rw [pos_read_n_from r src h, cap_read_n_from]
  exact Nat.mod_lt _ hcap

@[simp] theorem cap_readOne (r : RingBuffer α) (c : Bool) : (r.readOne c).1.cap = r.cap := by
  cases c <;> simp [readOne, cap]

theorem pos_readOne (r : RingBuffer α) (c : Bool) : (r.readOne c).1.pos = (r.pos + 1) % r.cap := by
  cases c <;> rfl

@[simp] theorem cap_copy_n_to (r : RingBuffer α) (n : Nat) (c : Bool) :
    (r.copy_n_to n c).1.cap = r.cap := by
  induction n generalizing r with
  | zero => rfl
  | succ n ih => simp [copy_n_to, ih]

@[simp] theorem length_copy_n_to (r : RingBuffer α) (n : Nat) (c : Bool) :
    (r.copy_n_to n c).2.length = n := by
  induction n generalizing r with
  | zero => rfl
  | succ n ih => simp [copy_n_to, ih]

theorem pos_copy_n_to (r : RingBuffer α) (n : Nat) (c : Bool) (h : r.pos < r.cap) :
    (r.copy_n_to n c).1.pos = (r.pos + n) % r.cap := by
  induction n generalizing r with
  | zero => simpa [copy_n_to] using (Nat.mod_eq_of_lt h).symm
  | succ n ih =>
      have hcap : 0 < r.cap := Nat.lt_of_le_of_lt (Nat.zero_le _) h
      have hlt : (r.readOne c).1.pos < (r.readOne c).1.cap := by
        rw [pos_readOne, cap_readOne]
        exact Nat.mod_lt _ hcap
      simp only [copy_n_to]
      rw [ih _ hlt]
      simp [pos_readOne, cap_readOne, Nat.mod_add_mod]
      ring_nf

theorem pos_lt_copy_n_to (r : RingBuffer α) (n : Nat) (c : Bool) (h : r.pos < r.cap) :
    (r.copy_n_to n c).1.pos < (r.copy_n_to n c).1.cap := by
  have hcap : 0 < r.cap := Nat.lt_of_le_of_lt (Nat.zero_le _) h
  rw [pos_copy_n_to r n c h, cap_copy_n_to]
  exact Nat.mod_lt _ hcap

end RingBuffer

section DriverLemmas

variable {α : Type} [Zero α] [Add α] [Mul α]

@[simp] theorem feedChunk_fft_window_size (ov : Nat) (sc : Bool) (pd : ProcessData α)
    (ch sch : List α) : (feedChunk ov sc pd ch sch).1.fft_window_size = pd.fft_window_size := rfl

@[simp] theorem feedChunk_num_windows (ov : Nat) (sc : Bool) (pd : ProcessData α)
    (ch sch : List α) :
    (feedChunk ov sc pd ch sch).1.num_windows_processed = pd.num_windows_processed := rfl

@[simp] theorem feedChunk_compressors (ov : Nat) (sc : Bool) (pd : ProcessData α)
    (ch sch : List α) :
    (feedChunk ov sc pd ch sch).1.spectral_compressors = pd.spectral_compressors := rfl

@[simp] theorem feedChunk_scratch (ov : Nat) (sc : Bool) (pd : ProcessData α)
    (ch sch : List α) :
    (feedChunk ov sc pd ch sch).1.fft_scratch_buffer = pd.fft_scratch_buffer := rfl

@[simp] theorem feedChunk_sidechain_thresholds (ov : Nat) (sc : Bool) (pd : ProcessData α)
    (ch sch : List α) :
    (feedChunk ov sc pd ch sch).1.spectral_compressor_sidechain_thresholds =
      pd.spectral_compressor_sidechain_thresholds := rfl

@[simp] theorem feedChunk_input_ring (ov : Nat) (sc : Bool) (pd : ProcessData α)
    (ch sch : List α) :
    (feedChunk ov sc pd ch sch).1.input_ring_buffers =
      pd.input_ring_buffers.read_n_from ch := rfl

@[simp] theorem feedChunk_snd_length (ov : Nat) (sc : Bool) (pd : ProcessData α)
    (ch sch : List α) : (feedChunk ov sc pd ch sch).2.length = ch.length := by
  unfold feedChunk
  split <;> simp

theorem doWindows_fft_window_size (ov : Nat) (sc : Bool) (P : ProcessData α → ProcessData α)
    (hop k : Nat) (pd : ProcessData α) (inp sci : List α)
    (hP : ∀ q, (P q).fft_window_size = q.fft_window_size) :
    (doWindows ov sc P hop k pd inp sci).1.fft_window_size = pd.fft_window_size := by
  induction k generalizing pd inp sci with
  | zero => rfl
  | succ k ih => simp [doWindows, ih, hP]

theorem doWindows_num_windows (ov : Nat) (sc : Bool) (P : ProcessData α → ProcessData α)
    (hop k : Nat) (pd : ProcessData α) (inp sci : List α)
    (hP : ∀ q, (P q).num_windows_processed = q.num_windows_processed) :
    (doWindows ov sc P hop k pd inp sci).1.num_windows_processed =
      pd.num_windows_processed + k := by
  induction k generalizing pd inp sci with
  | zero => simp [doWindows]
  | succ k ih =>
      simp only [doWindows]
      rw [ih]
      simp [hP]
      omega

theorem doWindows_snd_length (ov : Nat) (sc : Bool) (P : ProcessData α → ProcessData α)
    (hop k : Nat) (pd : ProcessData α) (inp sci : List α) :
    (doWindows ov sc P hop k pd inp sci).2.length = min (k * hop) inp.length := by
  induction k generalizing pd inp sci with
  | zero => simp [doWindows]
  | succ k ih =>
      simp only [doWindows, List.length_append, feedChunk_snd_length, ih, List.length_take,
        List.length_drop, Nat.succ_mul]
      omega

theorem le_ceil_mul (m hop : Nat) (h : 0 < hop) : m ≤ (m + hop - 1) / hop * hop := by
  have hd := Nat.div_add_mod (m + hop - 1) hop
  have hm := Nat.mod_lt (m + hop - 1) h
  rw [Nat.mul_comm]
  omega

theorem read_n_from_append {α : Type} [Zero α] [Add α] [Mul α] (r : RingBuffer α)
    (a b : List α) : r.read_n_from (a ++ b) = (r.read_n_from a).read_n_from b := by
  simp [RingBuffer.read_n_from, List.foldl_append]

theorem doWindows_input_ring (ov : Nat) (sc : Bool) (P : ProcessData α → ProcessData α)
    (hop k : Nat) (pd : ProcessData α) (inp sci : List α)
    (hP : ∀ q, (P q).input_ring_buffers = q.input_ring_buffers) :
    (doWindows ov sc P hop k pd inp sci).1.input_ring_buffers =
      pd.input_ring_buffers.read_n_from (inp.take (k * hop)) := by
  induction k generalizing pd inp sci with
  | zero => simp [doWindows]
  | succ k ih =>
      simp only [doWindows]
      rw [ih]
      simp only [feedChunk_input_ring, hP]
      rw [← read_n_from_append, ← List.take_add, Nat.succ_mul, Nat.add_comm (k * hop) hop]

theorem do_stft_input_ring (ov : Nat) (sc : Bool) (P : ProcessData α → ProcessData α)
    (pd : ProcessData α) (input sidechain : List α)
    (hhop : 0 < pd.fft_window_size / ov)
    (hP : ∀ q, (P q).input_ring_buffers = q.input_ring_buffers) :
    (do_stft ov sc P pd input sidechain).1.input_ring_buffers =
      pd.input_ring_buffers.read_n_from input := by
  simp only [do_stft]
  set hop := pd.fft_window_size / ov with hhop_def
  set N := input.length with hN
  set align := (hop - pd.input_ring_buffers.pos % hop) % hop with halign
  set already := if N ≤ align then N else align with halready
  have hle : already ≤ N := by rw [halready]; split <;> omega
  have hceil : N - already ≤ (N - already + hop - 1) / hop * hop :=
    le_ceil_mul (N - already) hop hhop
  by_cases h0 : 0 < already
  · rw [if_pos h0]
    rw [doWindows_input_ring ov sc P hop _ _ _ _ hP]
    simp only [feedChunk_input_ring, List.length_take]
    rw [← read_n_from_append, ← List.take_add]
    congr 1
    have : N ≤ already + (N - already + hop - 1) / hop * hop := by omega
    calc input.take (already + (N - already + hop - 1) / hop * hop)
        = input.take N := by
          rw [List.take_of_length_le (by omega), List.take_of_length_le (by omega)]
      _ = input := List.take_of_length_le (by omega)
  · rw [if_neg h0]
    rw [doWindows_input_ring ov sc P hop _ _ _ _ hP]
    have ha : already = 0 := by omega
    rw [ha]
    simp only [List.drop_zero, Nat.sub_zero]
    have hceil2 : N ≤ (N + hop - 1) / hop * hop := le_ceil_mul N hop hhop
    rw [List.take_of_length_le (by rw [← hN]; exact hceil2)]

/-- C1: for a host block of `N` samples with the input-ring cursor at `p`,
`do_stft` first consumes `min(N, (hop - p mod hop) mod hop)` samples to reach
the next hop boundary, invokes the window processor exactly
`ceil((N - alreadyAligned)/hop)` times (visible as the increase of
`num_windows_processed`, which the window processor itself never touches),
and in total copies exactly `N` samples out to the host and `N` samples into
the input ring. -/
theorem c1_block_alignment_window_count (ov : Nat) (sc : Bool)
    (P : ProcessData α → ProcessData α) (pd : ProcessData α) (input sidechain : List α)
    (hhop : 0 < pd.fft_window_size / ov)
    (hpos : pd.input_ring_buffers.pos < pd.input_ring_buffers.cap)
    (hP_nwp : ∀ q, (P q).num_windows_processed = q.num_windows_processed)
    (hP_in : ∀ q, (P q).input_ring_buffers = q.input_ring_buffers) :
    (do_stft ov sc P pd input sidechain).2.length = input.length ∧
    (do_stft ov sc P pd input sidechain).1.num_windows_processed =
      pd.num_windows_processed +
        (input.length -
            min input.length
              ((pd.fft_window_size / ov -
                  pd.input_ring_buffers.pos % (pd.fft_window_size / ov)) %
                (pd.fft_window_size / ov)) +
          pd.fft_window_size / ov - 1) / (pd.fft_window_size / ov) ∧
    (do_stft ov sc P pd input sidechain).1.input_ring_buffers.pos =
      (pd.input_ring_buffers.pos + input.length) % pd.input_ring_buffers.cap := by
  refine ⟨?_, ?_, ?_⟩
  · simp only [do_stft]
    set hop := pd.fft_window_size / ov with hhop_def
    set N := input.length with hN
    set align := (hop - pd.input_ring_buffers.pos % hop) % hop with halign
    set already := if N ≤ align then N else align with halready
    have hle : already ≤ N := by rw [halready]; split <;> omega
    have hceil : N - already ≤ (N - already + hop - 1) / hop * hop :=
      le_ceil_mul (N - already) hop hhop
    by_cases h0 : 0 < already
    · rw [if_pos h0]
      simp only [List.length_append, doWindows_snd_length, feedChunk_snd_length,
        List.length_take, List.length_drop]
      omega
    · rw [if_neg h0]
      simp only [List.length_append, doWindows_snd_length, List.length_nil,
        List.length_drop]
      omega
  · simp only [do_stft]
    set hop := pd.fft_window_size / ov with hhop_def
    set N := input.length with hN
    set align := (hop - pd.input_ring_buffers.pos % hop) % hop with halign
    set already := if N ≤ align then N else align with halready
    have hmin : min N align = already := by rw [halready, Nat.min_def]
    rw [hmin]
    by_cases h0 : 0 < already
    · rw [if_pos h0]
      rw [doWindows_num_windows ov sc P hop _ _ _ _ hP_nwp, feedChunk_num_windows]
    · rw [if_neg h0]
      rw [doWindows_num_windows ov sc P hop _ _ _ _ hP_nwp]
  · rw [do_stft_input_ring ov sc P pd input sidechain hhop hP_in]
    exact RingBuffer.pos_read_n_from _ _ hpos

/-- Witness for `c1_block_alignment_window_count` at a concrete state:
window size 8, overlap 2 (hop 4), cursor at 3, a block of 9 samples.
`alreadyAligned = min(9, (4 - 3 mod 4) mod 4) = 1` and `ceil((9-1)/4) = 2`
windows are processed. -/
theorem c1_block_alignment_window_count_witness :
    (do_stft (α := ℤ) 2 false id
        ⟨8, 5, [], [], [], ⟨List.replicate 8 0, 3⟩, ⟨List.replicate 8 0, 0⟩,
          ⟨List.replicate 8 0, 0⟩⟩
        (List.replicate 9 1) (List.replicate 9 0)).2.length = 9 ∧
    (do_stft (α := ℤ) 2 false id
        ⟨8, 5, [], [], [], ⟨List.replicate 8 0, 3⟩, ⟨List.replicate 8 0, 0⟩,
          ⟨List.replicate 8 0, 0⟩⟩
        (List.replicate 9 1) (List.replicate 9 0)).1.num_windows_processed = 5 + 2 ∧
    (do_stft (α := ℤ) 2 false id
        ⟨8, 5, [], [], [], ⟨List.replicate 8 0, 3⟩, ⟨List.replicate 8 0, 0⟩,
          ⟨List.replicate 8 0, 0⟩⟩
        (List.replicate 9 1) (List.replicate 9 0)).1.input_ring_buffers.pos = (3 + 9) % 8 := by
  have h := c1_block_alignment_window_count (α := ℤ) 2 false id
    ⟨8, 5, [], [], [], ⟨List.replicate 8 0, 3⟩, ⟨List.replicate 8 0, 0⟩,
      ⟨List.replicate 8 0, 0⟩⟩
    (List.replicate 9 1) (List.replicate 9 0)
    (by decide) (by simp [RingBuffer.cap]) (fun q => rfl) (fun q => rfl)
  simpa using h

@[simp] theorem feedOne_num_windows (ov : Nat) (sc : Bool) (pd : ProcessData α) (x s : α) :
    (feedOne ov sc pd x s).1.num_windows_processed = pd.num_windows_processed := rfl

@[simp] theorem feedOne_fft_window_size (ov : Nat) (sc : Bool) (pd : ProcessData α) (x s : α) :
    (feedOne ov sc pd x s).1.fft_window_size = pd.fft_window_size := rfl

@[simp] theorem feedOne_input_ring (ov : Nat) (sc : Bool) (pd : ProcessData α) (x s : α) :
    (feedOne ov sc pd x s).1.input_ring_buffers = pd.input_ring_buffers.writeOne x := rfl

theorem feedChunk_nil (ov : Nat) (sc : Bool) (pd : ProcessData α) :
    feedChunk ov sc pd [] [] = (pd, []) := by
  unfold feedChunk
  split <;> simp [RingBuffer.copy_n_to]

theorem feedChunk_cons (ov : Nat) (sc : Bool) (pd : ProcessData α) (x s : α)
    (xs ss : List α) :
    feedChunk ov sc pd (x :: xs) (s :: ss) =
      ((feedChunk ov sc (feedOne ov sc pd x s).1 xs ss).1,
        (feedOne ov sc pd x s).2 :: (feedChunk ov sc (feedOne ov sc pd x s).1 xs ss).2) := by
  by_cases hg : pd.num_windows_processed ≥ ov
  · simp only [feedChunk, feedOne, List.length_cons, hg, if_pos, ge_iff_le, le_refl,
      RingBuffer.read_n_from_cons, RingBuffer.copy_n_to]
    by_cases hsc : sc = true <;> simp [hsc]
  · simp only [feedChunk, feedOne, List.length_cons, ge_iff_le, hg, if_neg,
      RingBuffer.read_n_from_cons, List.replicate_succ]
    by_cases hsc : sc = true <;> simp [hsc, hg]

theorem feedChunk_eq_feedSamples (ov : Nat) (sc : Bool) (pd : ProcessData α)
    (ch sch : List α) (h : sch.length = ch.length) :
    feedChunk ov sc pd ch sch = feedSamples ov sc pd (ch.zip sch) := by
  induction ch generalizing pd sch with
  | nil =>
      cases sch with
      | nil => simpa [feedSamples] using feedChunk_nil ov sc pd
      | cons s ss => simp at h
  | cons x xs ih =>
      cases sch with
      | nil => simp at h
      | cons s ss =>
          simp only [List.length_cons, Nat.add_right_cancel_iff] at h
          rw [List.zip_cons_cons]
          simp only [feedSamples]
          rw [feedChunk_cons, ih _ _ h]

theorem runSamples_append (ov : Nat) (sc : Bool) (P : ProcessData α → ProcessData α)
    (hop : Nat) (pd : ProcessData α) (l1 l2 : List (α × α)) :
    runSamples ov sc P hop pd (l1 ++ l2) =
      ((runSamples ov sc P hop (runSamples ov sc P hop pd l1).1 l2).1,
        (runSamples ov sc P hop pd l1).2 ++
          (runSamples ov sc P hop (runSamples ov sc P hop pd l1).1 l2).2) := by
  induction l1 generalizing pd with
  | nil => simp [runSamples]
  | cons q qs ih => simp [runSamples, ih]

theorem runSamples_no_fire (ov : Nat) (sc : Bool) (P : ProcessData α → ProcessData α)
    (hop : Nat) (hhop : 0 < hop) (pd : ProcessData α) (l : List (α × α))
    (hdvd : hop ∣ pd.input_ring_buffers.cap)
    (hpos : pd.input_ring_buffers.pos < pd.input_ring_buffers.cap)
    (h : ∀ i < l.length, (pd.input_ring_buffers.pos + i) % hop ≠ 0) :
    runSamples ov sc P hop pd l = feedSamples ov sc pd l := by
  induction l generalizing pd with
  | nil => rfl
  | cons q qs ih =>
      have h0 : pd.input_ring_buffers.pos % hop ≠ 0 := by
        have := h 0 (by simp)
        simpa using this
      have hcap : 0 < pd.input_ring_buffers.cap :=
        Nat.lt_of_le_of_lt (Nat.zero_le _) hpos
      simp only [runSamples, feedSamples, stepOne, if_neg h0]
      have hrec := ih (feedOne ov sc pd q.1 q.2).1 ?_ ?_ ?_
      · rw [hrec]
      · simpa using hdvd
      · simpa using RingBuffer.pos_lt_writeOne pd.input_ring_buffers q.1 hcap
      · intro i hi
        simp only [feedOne_input_ring, RingBuffer.pos_writeOne]
        have hmod : (pd.input_ring_buffers.pos + 1) % pd.input_ring_buffers.cap % hop =
            (pd.input_ring_buffers.pos + 1) % hop := Nat.mod_mod_of_dvd _ hdvd
        rw [← Nat.mod_add_mod, hmod, Nat.mod_add_mod, Nat.add_assoc]
        exact h (1 + i) (by simp; omega)

theorem runSamples_fire_chunk (ov : Nat) (sc : Bool) (P : ProcessData α → ProcessData α)
    (hop : Nat) (hhop : 0 < hop) (pd : ProcessData α) (l : List (α × α))
    (hdvd : hop ∣ pd.input_ring_buffers.cap)
    (hpos : pd.input_ring_buffers.pos < pd.input_ring_buffers.cap)
    (h0 : pd.input_ring_buffers.pos % hop = 0)
    (hne : l ≠ []) (hlen : l.length ≤ hop)
    (hP_in : ∀ q, (P q).input_ring_buffers = q.input_ring_buffers) :
    runSamples ov sc P hop pd l =
      feedSamples ov sc
        { P pd with num_windows_processed := (P pd).num_windows_processed + 1 } l := by
  cases l with
  | nil => contradiction
  | cons q qs =>
      have hcap : 0 < pd.input_ring_buffers.cap :=
        Nat.lt_of_le_of_lt (Nat.zero_le _) hpos
      have hqs : qs.length + 1 ≤ hop := by simpa using hlen
      have hbump : ({ P pd with
          num_windows_processed :=
            (P pd).num_windows_processed + 1 } : ProcessData α).input_ring_buffers =
          pd.input_ring_buffers := by simp [hP_in]
      set pdb : ProcessData α :=
        { P pd with num_windows_processed := (P pd).num_windows_processed + 1 } with hpdb
      set f := feedOne ov sc pdb q.1 q.2 with hf
      have hfin : f.1.input_ring_buffers = pd.input_ring_buffers.writeOne q.1 := by
        rw [hf, feedOne_input_ring, hbump]
      have hd2 : hop ∣ f.1.input_ring_buffers.cap := by
        rw [hfin, RingBuffer.cap_writeOne]; exact hdvd
      have hp2 : f.1.input_ring_buffers.pos < f.1.input_ring_buffers.cap := by
        rw [hfin]; exact RingBuffer.pos_lt_writeOne _ _ hcap
      have hf2 : ∀ i < qs.length, (f.1.input_ring_buffers.pos + i) % hop ≠ 0 := by
        intro i hi
        rw [hfin, RingBuffer.pos_writeOne]
        have hmod : (pd.input_ring_buffers.pos + 1) % pd.input_ring_buffers.cap % hop =
            (pd.input_ring_buffers.pos + 1) % hop := Nat.mod_mod_of_dvd _ hdvd
        rw [← Nat.mod_add_mod, hmod, Nat.mod_add_mod, Nat.add_assoc, ← Nat.mod_add_mod, h0]
        have h1i : (1 + i) < hop := by omega
        rw [Nat.zero_add, Nat.mod_eq_of_lt h1i]
        omega
      have htail := runSamples_no_fire ov sc P hop hhop f.1 qs hd2 hp2 hf2
      simp only [runSamples, stepOne, if_pos h0, feedSamples]
      rw [← hpdb, ← hf, htail]

theorem zip_take_append_zip_drop (n : Nat) (inp sci : List α)
    (hlen : sci.length = inp.length) :
    inp.zip sci =
      (inp.take n).zip (sci.take n) ++ (inp.drop n).zip (sci.drop n) := by
  conv_lhs => rw [← List.take_append_drop n inp, ← List.take_append_drop n sci]
  rw [List.zip_append (by simp [hlen])]

theorem doWindows_eq_runSamples (ov : Nat) (sc : Bool) (P : ProcessData α → ProcessData α)
    (hop : Nat) (hhop : 0 < hop) (k : Nat) (pd : ProcessData α) (inp sci : List α)
    (hdvd : hop ∣ pd.input_ring_buffers.cap)
    (hpos : pd.input_ring_buffers.pos < pd.input_ring_buffers.cap)
    (h0 : pd.input_ring_buffers.pos % hop = 0)
    (hk : k = (inp.length + hop - 1) / hop)
    (hlen : sci.length = inp.length)
    (hP_in : ∀ q, (P q).input_ring_buffers = q.input_ring_buffers) :
    doWindows ov sc P hop k pd inp sci = runSamples ov sc P hop pd (inp.zip sci) := by
  induction k generalizing pd inp sci with
  | zero =>
      have hlen0 : inp.length = 0 := by
        by_contra hne
        have h1 : 0 < inp.length := Nat.pos_of_ne_zero hne
        have h2 : 0 < (inp.length + hop - 1) / hop := Nat.div_pos (by omega) hhop
        omega
      have hinp : inp = [] := List.length_eq_zero.mp hlen0
      have hsci : sci = [] := List.length_eq_zero.mp (by omega)
      subst hinp; subst hsci
      rfl
  | succ k ih =>
      have hN : 0 < inp.length := by
        by_contra hne
        have h1 : inp.length = 0 := by omega
        rw [h1] at hk
        have : (0 + hop - 1) / hop = 0 := Nat.div_eq_of_lt (by omega)
        omega
      have hzipne : inp.zip sci ≠ [] := by
        have : 0 < (inp.zip sci).length := by
          simp only [List.length_zip, hlen]; omega
        exact List.length_pos.mp this
      by_cases hsmall : inp.length ≤ hop
      · have hc : (inp.length + hop - 1) / hop = 1 :=
          Nat.div_eq_of_lt_le (by omega) (by omega)
        have hk0 : k = 0 := by omega
        subst hk0
        simp only [doWindows]
        rw [List.take_of_length_le hsmall, List.take_of_length_le (by omega)]
        rw [runSamples_fire_chunk ov sc P hop hhop pd _ hdvd hpos h0 hzipne
              (by simp only [List.length_zip, hlen]; omega) hP_in]
        rw [feedChunk_eq_feedSamples ov sc _ inp sci hlen]
        simp [doWindows]
      · push_neg at hsmall
        rw [zip_take_append_zip_drop hop inp sci hlen, runSamples_append]
        have htke : (inp.take hop).zip (sci.take hop) ≠ [] := by
          have : 0 < ((inp.take hop).zip (sci.take hop)).length := by
            simp only [List.length_zip, List.length_take, hlen]; omega
          exact List.length_pos.mp this
        rw [runSamples_fire_chunk ov sc P hop hhop pd _ hdvd hpos h0 htke
              (by simp only [List.length_zip, List.length_take, hlen]; omega) hP_in]
        rw [← feedChunk_eq_feedSamples ov sc _ (inp.take hop) (sci.take hop)
              (by simp [hlen])]
        have hbump : ({ P pd with
            num_windows_processed :=
              (P pd).num_windows_processed + 1 } : ProcessData α).input_ring_buffers =
            pd.input_ring_buffers := by simp [hP_in]
        set pdb : ProcessData α :=
          { P pd with num_windows_processed := (P pd).num_windows_processed + 1 } with hpdb
        set fed := feedChunk ov sc pdb (inp.take hop) (sci.take hop) with hfed
        have hfin : fed.1.input_ring_buffers =
            pd.input_ring_buffers.read_n_from (inp.take hop) := by
          rw [hfed, feedChunk_input_ring, hbump]
        have hd2 : hop ∣ fed.1.input_ring_buffers.cap := by
          rw [hfin, RingBuffer.cap_read_n_from]; exact hdvd
        have hp2 : fed.1.input_ring_buffers.pos < fed.1.input_ring_buffers.cap := by
          rw [hfin]; exact RingBuffer.pos_lt_read_n_from _ _ hpos
        have h02 : fed.1.input_ring_buffers.pos % hop = 0 := by
          rw [hfin, RingBuffer.pos_read_n_from _ _ hpos, Nat.mod_mod_of_dvd _ hdvd]
          simp only [List.length_take]
          have hmin : min hop inp.length = hop := by omega
          rw [hmin, ← Nat.mod_add_mod, h0]
          simp
        have hk2 : k = ((inp.drop hop).length + hop - 1) / hop := by
          have heq : inp.length + hop - 1 = (inp.length - hop + hop - 1) + hop := by omega
          have hstep : (inp.length + hop - 1) / hop =
              (inp.length - hop + hop - 1) / hop + 1 := by
            rw [heq, Nat.add_div_right _ hhop]
          simp only [List.length_drop]
          omega
        have hlen2 : (sci.drop hop).length = (inp.drop hop).length := by simp [hlen]
        have hrec := ih fed.1 (inp.drop hop) (sci.drop hop) hd2 hp2 h02 hk2 hlen2
        simp only [doWindows]
        rw [← hpdb, ← hfed, hrec]

theorem do_stft_eq_runSamples (ov : Nat) (sc : Bool) (P : ProcessData α → ProcessData α)
    (pd : ProcessData α) (input sidechain : List α)
    (hhop : 0 < pd.fft_window_size / ov)
    (hdvd : pd.fft_window_size / ov ∣ pd.input_ring_buffers.cap)
    (hpos : pd.input_ring_buffers.pos < pd.input_ring_buffers.cap)
    (hlen : sidechain.length = input.length)
    (hP_in : ∀ q, (P q).input_ring_buffers = q.input_ring_buffers) :
    do_stft ov sc P pd input sidechain =
      runSamples ov sc P (pd.fft_window_size / ov) pd (input.zip sidechain) := by
  by_cases hN0 : input.length = 0
  · have hinp : input = [] := List.length_eq_zero.mp hN0
    have hsci : sidechain = [] := List.length_eq_zero.mp (by omega)
    subst hinp; subst hsci
    have hk0 : (pd.fft_window_size / ov - 1) / (pd.fft_window_size / ov) = 0 :=
      Nat.div_eq_of_lt (by omega)
    simp [do_stft, hk0, doWindows, runSamples]
  · have hNpos : 0 < input.length := Nat.pos_of_ne_zero hN0
    simp only [do_stft]
    set hop := pd.fft_window_size / ov with hhopdef
    set N := input.length with hNdef
    set r := pd.input_ring_buffers.pos % hop with hrdef
    set align := (hop - r) % hop with haligndef
    have hrlt : r < hop := Nat.mod_lt _ hhop
    by_cases hr0 : r = 0
    · have halign0 : align = 0 := by rw [haligndef, hr0]; simp
      have halready : (if N ≤ align then N else align) = 0 := by
        rw [halign0]; split <;> omega
      rw [halready]
      simp only [Nat.lt_irrefl, if_false, List.drop_zero, Nat.sub_zero]
      rw [doWindows_eq_runSamples ov sc P hop hhop _ pd input sidechain hdvd hpos hr0 rfl
            hlen hP_in]
      simp
    · have halign1 : align = hop - r := by
        rw [haligndef, Nat.mod_eq_of_lt (by omega)]
      have halignpos : 0 < align := by omega
      by_cases hNa : N ≤ align
      · have halready : (if N ≤ align then N else align) = N := if_pos hNa
        rw [halready, if_pos hNpos]
        have hnof : ∀ i < (input.zip sidechain).length,
            (pd.input_ring_buffers.pos + i) % hop ≠ 0 := by
          intro i hi
          rw [← Nat.mod_add_mod, ← hrdef]
          have hiN : i < N := by
            simpa [List.length_zip, hlen, ← hNdef] using hi
          have hri : r + i < hop := by omega
          rw [Nat.mod_eq_of_lt hri]
          omega
        rw [runSamples_no_fire ov sc P hop hhop pd _ hdvd hpos hnof,
          ← feedChunk_eq_feedSamples ov sc pd input sidechain hlen]
        rw [List.take_of_length_le (by omega), List.take_of_length_le (by omega)]
        have hk0 : (N - N + hop - 1) / hop = 0 := by
          have h00 : (0 + hop - 1) / hop = 0 := Nat.div_eq_of_lt (by omega)
          simpa using h00
        rw [hk0, List.drop_eq_nil_of_le (le_refl N),
          List.drop_eq_nil_of_le (by omega : sidechain.length ≤ N)]
        simp [doWindows]
      · push_neg at hNa
        have halready : (if N ≤ align then N else align) = align := by
          rw [if_neg (by omega)]
        rw [halready, if_pos halignpos]
        rw [zip_take_append_zip_drop align input sidechain hlen, runSamples_append]
        have hnof : ∀ i < ((input.take align).zip (sidechain.take align)).length,
            (pd.input_ring_buffers.pos + i) % hop ≠ 0 := by
          intro i hi
          rw [← Nat.mod_add_mod, ← hrdef]
          have hia : i < align := by
            simp [List.length_zip, List.length_take, hlen, ← hNdef] at hi
            omega
          have hri : r + i < hop := by omega
          rw [Nat.mod_eq_of_lt hri]
          omega
        rw [runSamples_no_fire ov sc P hop hhop pd _ hdvd hpos hnof,
          ← feedChunk_eq_feedSamples ov sc pd (input.take align) (sidechain.take align)
            (by simp [hlen])]
        set fed := feedChunk ov sc pd (input.take align) (sidechain.take align) with hfed
        have hfin : fed.1.input_ring_buffers =
            pd.input_ring_buffers.read_n_from (input.take align) := by
          rw [hfed, feedChunk_input_ring]
        have hd2 : hop ∣ fed.1.input_ring_buffers.cap := by
          rw [hfin, RingBuffer.cap_read_n_from]; exact hdvd
        have hp2 : fed.1.input_ring_buffers.pos < fed.1.input_ring_buffers.cap := by
          rw [hfin]; exact RingBuffer.pos_lt_read_n_from _ _ hpos
        have h02 : fed.1.input_ring_buffers.pos % hop = 0 := by
          rw [hfin, RingBuffer.pos_read_n_from _ _ hpos, Nat.mod_mod_of_dvd _ hdvd]
          simp only [List.length_take, ← hNdef]
          have hmin : min align N = align := by omega
          rw [hmin, ← Nat.mod_add_mod, ← hrdef]
          have : r + align = hop := by omega
          rw [this, Nat.mod_self]
        have hk2 : (N - align + hop - 1) / hop =
            ((input.drop align).length + hop - 1) / hop := by
          simp [List.length_drop, ← hNdef]
        have hlen2 : (sidechain.drop align).length = (input.drop align).length := by
          simp [hlen]
        have hrec := doWindows_eq_runSamples ov sc P hop hhop
          ((N - align + hop - 1) / hop) fed.1 (input.drop align)
          (sidechain.drop align) hd2 hp2 h02 hk2 hlen2 hP_in
        rw [hrec]

theorem do_stft_fft_window_size (ov : Nat) (sc : Bool) (P : ProcessData α → ProcessData α)
    (pd : ProcessData α) (input sidechain : List α)
    (hP_W : ∀ q, (P q).fft_window_size = q.fft_window_size) :
    (do_stft ov sc P pd input sidechain).1.fft_window_size = pd.fft_window_size := by
  simp only [do_stft]
  rw [doWindows_fft_window_size _ _ _ _ _ _ _ _ hP_W]
  split <;> split <;> simp

theorem runBlocks_eq_runSamples (ov : Nat) (sc : Bool) (P : ProcessData α → ProcessData α)
    (pd : ProcessData α) (bs : List (List α × List α))
    (hhop : 0 < pd.fft_window_size / ov)
    (hdvd : pd.fft_window_size / ov ∣ pd.input_ring_buffers.cap)
    (hpos : pd.input_ring_buffers.pos < pd.input_ring_buffers.cap)
    (hblen : ∀ b ∈ bs, (b : List α × List α).2.length = b.1.length)
    (hP_in : ∀ q, (P q).input_ring_buffers = q.input_ring_buffers)
    (hP_W : ∀ q, (P q).fft_window_size = q.fft_window_size) :
    runBlocks ov sc P pd bs =
      runSamples ov sc P (pd.fft_window_size / ov) pd
        ((bs.map Prod.fst).join.zip ((bs.map Prod.snd).join)) := by
  induction bs generalizing pd with
  | nil => rfl
  | cons b bs ih =>
      have hb : b.2.length = b.1.length := hblen b (List.mem_cons_self b bs)
      have hjlen : ∀ c ∈ bs, (c : List α × List α).2.length = c.1.length := fun c hc =>
        hblen c (List.mem_cons_of_mem b hc)
      simp only [List.map_cons, List.join_cons]
      rw [List.zip_append hb.symm, runSamples_append]
      rw [← do_stft_eq_runSamples ov sc P pd b.1 b.2 hhop hdvd hpos hb hP_in]
      simp only [runBlocks]
      set st1 := do_stft ov sc P pd b.1 b.2 with hst1
      have hW1 : st1.1.fft_window_size = pd.fft_window_size := by
        rw [hst1]; exact do_stft_fft_window_size ov sc P pd b.1 b.2 hP_W
      have hin1 : st1.1.input_ring_buffers = pd.input_ring_buffers.read_n_from b.1 := by
        rw [hst1]; exact do_stft_input_ring ov sc P pd b.1 b.2 hhop hP_in
      have hhop1 : 0 < st1.1.fft_window_size / ov := by rw [hW1]; exact hhop
      have hdvd1 : st1.1.fft_window_size / ov ∣ st1.1.input_ring_buffers.cap := by
        rw [hW1, hin1, RingBuffer.cap_read_n_from]; exact hdvd
      have hpos1 : st1.1.input_ring_buffers.pos < st1.1.input_ring_buffers.cap := by
        rw [hin1]; exact RingBuffer.pos_lt_read_n_from _ _ hpos
      have hrec := ih st1.1 hhop1 hdvd1 hpos1 hjlen
      rw [hW1] at hrec
      rw [hrec]

/-- C2 (amended): provided the overlap factor divides the window size (so
that the hop `windowing_interval = fft_window_size / windowing_overlap_times`
divides the ring capacity; the code's TODO notes that other overlap values
should be disallowed), running the processor over any two block decompositions
of the same total input and sidechain streams, from the same initial state
with the same configuration, produces the same final state and the same
output samples. -/
theorem c2_block_size_independence (ov : Nat) (sc : Bool)
    (P : ProcessData α → ProcessData α) (pd : ProcessData α)
    (bs1 bs2 : List (List α × List α))
    (hhop : 0 < pd.fft_window_size / ov)
    (hdvd : pd.fft_window_size / ov ∣ pd.input_ring_buffers.cap)
    (hpos : pd.input_ring_buffers.pos < pd.input_ring_buffers.cap)
    (hblen1 : ∀ b ∈ bs1, (b : List α × List α).2.length = b.1.length)
    (hblen2 : ∀ b ∈ bs2, (b : List α × List α).2.length = b.1.length)
    (hP_in : ∀ q, (P q).input_ring_buffers = q.input_ring_buffers)
    (hP_W : ∀ q, (P q).fft_window_size = q.fft_window_size)
    (hjoin_in : (bs1.map Prod.fst).join = (bs2.map Prod.fst).join)
    (hjoin_sc : (bs1.map Prod.snd).join = (bs2.map Prod.snd).join) :
    runBlocks ov sc P pd bs1 = runBlocks ov sc P pd bs2 := by
  rw [runBlocks_eq_runSamples ov sc P pd bs1 hhop hdvd hpos hblen1 hP_in hP_W,
    runBlocks_eq_runSamples ov sc P pd bs2 hhop hdvd hpos hblen2 hP_in hP_W,
    hjoin_in, hjoin_sc]

/-- Witness for `c2_block_size_independence`: window size 8, overlap 2
(hop 4 divides the capacity 8), a 9-sample stream fed as one block versus
three blocks of sizes 4, 3 and 2, with the `depositOnes` window processor. -/
theorem c2_block_size_independence_witness :
    runBlocks 2 false depositOnes (freshWorkingSet 8)
        [(List.replicate 9 1, List.replicate 9 0)] =
      runBlocks 2 false depositOnes (freshWorkingSet 8)
        [(List.replicate 4 1, List.replicate 4 0),
         (List.replicate 3 1, List.replicate 3 0),
         (List.replicate 2 1, List.replicate 2 0)] := by
  apply c2_block_size_independence 2 false depositOnes (freshWorkingSet 8)
  · decide
  · decide
  · decide
  · intro b hb
    fin_cases hb <;> decide
  · intro b hb
    fin_cases hb <;> decide
  · intro q; rfl
  · intro q; rfl
  · decide
  · decide

/-- Counterexample for C2 as frozen: with window size 16 and overlap factor 3
(an overlap the parameter range `[2, 64]` allows, whose hop `16 / 3 = 5` does
not divide the ring capacity 16), the same 18-sample input fed as one block
versus as blocks of 16 and 2 produces different output samples (and a
different number of processed windows), because a ring-cursor wrap inside a
block desynchronises the block-level alignment formula from the cursor.  The
same divergence occurs at the plugin's in-range configurations, e.g. window
size 512 with overlap 3. -/
theorem c2_counterexample :
    (runBlocks 3 false depositOnes (freshWorkingSet 16)
        [(List.replicate 18 1, List.replicate 18 0)]).2 ≠
      (runBlocks 3 false depositOnes (freshWorkingSet 16)
        [(List.replicate 16 1, List.replicate 16 0),
         (List.replicate 2 1, List.replicate 2 0)]).2 := by
  decide

theorem getD_replicate_zero (n i : Nat) : (List.replicate n (0 : α)).getD i 0 = 0 := by
  induction n generalizing i with
  | zero => simp
  | succ n ih =>
      cases i with
      | zero => simp [List.replicate_succ]
      | succ i => simpa [List.replicate_succ] using ih i

theorem feedChunk_gated (ov : Nat) (sc : Bool) (pd : ProcessData α) (ch sch : List α)
    (hg : pd.num_windows_processed < ov) :
    (feedChunk ov sc pd ch sch).2 = List.replicate ch.length 0 ∧
    (feedChunk ov sc pd ch sch).1.output_ring_buffers = pd.output_ring_buffers := by
  unfold feedChunk
  rw [if_neg (Nat.not_le.mpr hg)]
  exact ⟨rfl, rfl⟩

theorem doWindows_gated_zero (ov : Nat) (sc : Bool) (P : ProcessData α → ProcessData α)
    (hop k : Nat) (pd : ProcessData α) (inp sci : List α)
    (hP_nwp : ∀ q, (P q).num_windows_processed = q.num_windows_processed) :
    ∀ i, i < (ov - 1 - pd.num_windows_processed) * hop →
      (doWindows ov sc P hop k pd inp sci).2.getD i 0 = 0 := by
  induction k generalizing pd inp sci with
  | zero => intro i hi; simp [doWindows]
  | succ k ih =>
      intro i hi
      have htpos : 0 < ov - 1 - pd.num_windows_processed := by
        rcases Nat.eq_zero_or_pos (ov - 1 - pd.num_windows_processed) with h | h
        · rw [h] at hi; simp at hi
        · exact h
      simp only [doWindows]
      have hg : ({ P pd with
          num_windows_processed :=
            (P pd).num_windows_processed + 1 } : ProcessData α).num_windows_processed < ov := by
        simp only [hP_nwp]
        omega
      obtain ⟨hrep, -⟩ := feedChunk_gated ov sc _ (inp.take hop) (sci.take hop) hg
      by_cases hlt : i < (feedChunk ov sc
          { P pd with num_windows_processed := (P pd).num_windows_processed + 1 }
          (inp.take hop) (sci.take hop)).2.length
      · rw [List.getD_append _ _ _ _ hlt, hrep]
        exact getD_replicate_zero _ _
      · push_neg at hlt
        rw [List.getD_append_right _ _ _ _ hlt]
        by_cases hbig : hop ≤ inp.length
        · apply ih
          simp only [feedChunk_snd_length, List.length_take] at hlt
          simp only [feedChunk_num_windows, hP_nwp, feedChunk_snd_length, List.length_take]
          have hfac : ov - 1 - pd.num_windows_processed =
              (ov - 1 - (pd.num_windows_processed + 1)) + 1 := by omega
          rw [hfac, Nat.succ_mul] at hi
          omega
        · push_neg at hbig
          have hdrop : inp.drop hop = [] := List.drop_eq_nil_of_le (by omega)
          rw [List.getD_eq_default]
          rw [doWindows_snd_length, hdrop]
          simp

/-- C3 (amended): the driver's latency gate — if fewer than
`windowing_overlap_times` windows have been processed at the time of a copy,
the host output chunk is zeroed and the output ring is left untouched rather
than read; consequently, starting from a fresh working set, the first
`window_size − hop = (overlap_factor − 1) · hop` output samples are silence,
for every window processor and every input.  (The remaining `hop` samples of
the first `window_size` are read from the output ring, so they are silence
only when the per-window processing preserves them — e.g. bypass or unity
ratio, as in the spec's concrete scenario.) -/
theorem do_stft_fresh_gated_silence (ov : Nat) (sc : Bool)
    (P : ProcessData α → ProcessData α) (pd : ProcessData α) (input sidechain : List α)
    (hfresh_pos : pd.input_ring_buffers.pos = 0)
    (hfresh_nwp : pd.num_windows_processed = 0)
    (hP_nwp : ∀ q, (P q).num_windows_processed = q.num_windows_processed) :
    ∀ i, i < (ov - 1) * (pd.fft_window_size / ov) →
      (do_stft ov sc P pd input sidechain).2.getD i 0 = 0 := by
  intro i hi
  simp only [do_stft, hfresh_pos, Nat.zero_mod, Nat.sub_zero, Nat.mod_self]
  have halready : (if input.length ≤ 0 then input.length else 0) = 0 := by
    split <;> omega
  rw [halready]
  simp only [Nat.lt_irrefl, if_false, List.drop_zero, Nat.sub_zero]
  have hz := doWindows_gated_zero ov sc P (pd.fft_window_size / ov)
    ((input.length - 0 + pd.fft_window_size / ov - 1) / (pd.fft_window_size / ov))
    pd input sidechain hP_nwp i
  rw [hfresh_nwp] at hz
  simpa using hz (by simpa using hi)

theorem c3_latency_silence (ov : Nat) (sc : Bool) (P : ProcessData α → ProcessData α)
    (pd : ProcessData α) (input sidechain : List α)
    (hfresh_pos : pd.input_ring_buffers.pos = 0)
    (hfresh_nwp : pd.num_windows_processed = 0)
    (hP_nwp : ∀ q, (P q).num_windows_processed = q.num_windows_processed) :
    (∀ (qd : ProcessData α) (ch sch : List α), qd.num_windows_processed < ov →
      (feedChunk ov sc qd ch sch).2 = List.replicate ch.length 0 ∧
      (feedChunk ov sc qd ch sch).1.output_ring_buffers = qd.output_ring_buffers) ∧
    ∀ i, i < (ov - 1) * (pd.fft_window_size / ov) →
      (do_stft ov sc P pd input sidechain).2.getD i 0 = 0 :=
  ⟨fun qd ch sch hg => feedChunk_gated ov sc qd ch sch hg,
   do_stft_fresh_gated_silence ov sc P pd input sidechain hfresh_pos hfresh_nwp hP_nwp⟩

/-- Witness for `c3_latency_silence`: window size 8, overlap 2 (hop 4),
fresh working set, 9 samples of ones through the `depositOnes` window
processor: output sample 3 (< window_size − hop = 4) is zero. -/
theorem c3_latency_silence_witness :
    (do_stft 2 false depositOnes (freshWorkingSet 8)
        (List.replicate 9 1) (List.replicate 9 0)).2.getD 3 0 = 0 :=
  (c3_latency_silence 2 false depositOnes (freshWorkingSet 8)
      (List.replicate 9 1) (List.replicate 9 0) rfl rfl (fun q => rfl)).2
    3 (by decide)

/-- Counterexample for C3 as frozen: the claim that the first `window_size`
output samples from a fresh working set are silence is false — only the
first `window_size − hop` samples are forced to zero by the gate.  With
window size 8, overlap 2 (hop 4) and a window processor that (like spectral
compression with ratio ≠ 1) deposits energy across the whole overlap-added
window, output sample 4 (< window_size = 8) is nonzero. -/
theorem c3_counterexample :
    (do_stft 2 false depositOnes (freshWorkingSet 8)
        (List.replicate 9 1) (List.replicate 9 0)).2.getD 4 0 ≠ 0 := by
  decide

theorem length_mapWithIndex {β γ : Type} (f : Nat → β → γ) (i : Nat) (l : List β) :
    (mapWithIndex f i l).length = l.length := by
  induction l generalizing i with
  | nil => rfl
  | cons c cs ih => simp [mapWithIndex, ih]

theorem getD_mapWithIndex {β γ : Type} (f : Nat → β → γ) (i j : Nat) (l : List β)
    (d : γ) (d0 : β) (hj : j < l.length) :
    (mapWithIndex f i l).getD j d = f (i + j) (l.getD j d0) := by
  induction l generalizing i j with
  | nil => simp at hj
  | cons c cs ih =>
      cases j with
      | zero => simp [mapWithIndex]
      | succ j =>
          simp only [mapWithIndex, List.getD_cons_succ]
          rw [ih (i + 1) j (by simpa using hj)]
          congr 1
          omega

theorem getD_map_of_lt {β γ : Type} (f : β → γ) (l : List β) (j : Nat) (d : γ) (d0 : β)
    (hj : j < l.length) : (l.map f).getD j d = f (l.getD j d0) := by
  induction l generalizing j with
  | nil => simp at hj
  | cons c cs ih =>
      cases j with
      | zero => simp
      | succ j => simpa using ih j (by simpa using hj)

/-! ### C4: latency reporting and the double buffer -/

theorem latency_event_preserves_consistency (m : LatencyModel) (e : LatencyEvent)
    (h : LatencyConsistent m) : LatencyConsistent (applyLatencyEvent m e) := by
  cases e with
  | fftOrderChange o =>
      refine ⟨by simp [applyLatencyEvent, applyFftOrderChange], ?_⟩
      intro w hw
      simp only [applyLatencyEvent, applyFftOrderChange, Option.some.injEq] at hw ⊢
      exact hw
  | audioBlock =>
      rcases hp : m.pendingWindowSize with _ | w
      · simpa [applyLatencyEvent, applyAudioBlockSwap, hp] using h
      · refine ⟨fun _ => ?_, fun w2 hw2 => ?_⟩
        · simp only [applyLatencyEvent, applyAudioBlockSwap, hp]
          exact h.2 w hp
        · simp [applyLatencyEvent, applyAudioBlockSwap, hp] at hw2

/-- C4 (amended): the reported latency always equals the window size of the
active working set except between the `process_data_updater`'s publish of a
pending working set and the swap at the next block, where it equals the
pending one's; this consistency is preserved by every sequence of FFT-order
changes and audio blocks, and at every block-start swap the reported latency
equals the (new) active working set's window size — so the new latency is
reported before or at the first block processed under the new working set. -/
theorem c4_latency_reporting (m : LatencyModel) (evs : List LatencyEvent)
    (hinv : LatencyConsistent m) :
    LatencyConsistent (runLatencyEvents m evs) ∧
    (∀ m2 : LatencyModel, LatencyConsistent m2 →
      (applyAudioBlockSwap m2).reportedLatency =
        (applyAudioBlockSwap m2).activeWindowSize) := by
  constructor
  · induction evs generalizing m with
    | nil => exact hinv
    | cons e es ih => exact ih _ (latency_event_preserves_consistency m e hinv)
  · intro m2 h2
    rcases hp : m2.pendingWindowSize with _ | w
    · simpa [applyAudioBlockSwap, hp] using h2.1 hp
    · simpa [applyAudioBlockSwap, hp] using h2.2 w hp

/-- Witness for `c4_latency_reporting`: an FFT-order change to 13 followed by
an audio block, from a consistent initial state at window size 4096. -/
theorem c4_latency_reporting_witness :
    LatencyConsistent (runLatencyEvents ⟨4096, none, 4096⟩
        [LatencyEvent.fftOrderChange 13, LatencyEvent.audioBlock]) ∧
    (∀ m2 : LatencyModel, LatencyConsistent m2 →
      (applyAudioBlockSwap m2).reportedLatency =
        (applyAudioBlockSwap m2).activeWindowSize) :=
  c4_latency_reporting ⟨4096, none, 4096⟩
    [LatencyEvent.fftOrderChange 13, LatencyEvent.audioBlock]
    ⟨fun _ => rfl, fun w hw => Option.noConfusion hw⟩

/-- Counterexample for C4 as frozen: right after the async updater runs for
FFT order 13 (window size 8192) and before the next audio block, the
reported latency is 8192 — the PENDING working set's window size — while the
working set active on the real-time thread still has window size 4096.  So
the reported latency does not always equal the active set's window size. -/
theorem c4_counterexample :
    (applyFftOrderChange 13 ⟨4096, none, 4096⟩).reportedLatency ≠
      (applyFftOrderChange 13 ⟨4096, none, 4096⟩).activeWindowSize ∧
    (applyFftOrderChange 13 ⟨4096, none, 4096⟩).pendingWindowSize =
      some (applyFftOrderChange 13 ⟨4096, none, 4096⟩).reportedLatency := by
  decide

/-! ### C5: the effective sample rate fed to the compressor ballistics -/

/-- C5: `update_compressors` configures every bin compressor at the effective
sample rate `sample_rate / (fft_window_size / windowing_overlap_times)`,
which equals `sample_rate · overlap / window_size`; under the spec's
invariant that the overlap factor divides the window size this is exactly
the true sample rate divided by the hop, and it differs from the true sample
rate whenever `overlap < window_size` and the sample rate is positive. -/
theorem c5_effective_sample_rate {α : Type} [Zero α] [Add α] [Mul α] (sr : ℚ) (ov : Nat)
    (ratio a r : ℚ) (scA am : Bool) (pd : ProcessData α) (i : Nat)
    (hW : 0 < pd.fft_window_size) (hov : 0 < ov) (hdvd : ov ∣ pd.fft_window_size)
    (hi : i < pd.spectral_compressors.length) :
    ((update_compressors sr ov ratio a r scA am pd).1.spectral_compressors.getD i
        compressorDefault).sampleRate = sr * ov / pd.fft_window_size ∧
    ((update_compressors sr ov ratio a r scA am pd).1.spectral_compressors.getD i
        compressorDefault).sampleRate =
      sr / ((pd.fft_window_size / ov : Nat) : ℚ) ∧
    (ov < pd.fft_window_size → 0 < sr →
      ((update_compressors sr ov ratio a r scA am pd).1.spectral_compressors.getD i
          compressorDefault).sampleRate ≠ sr) := by
  have hWq : (pd.fft_window_size : ℚ) ≠ 0 := Nat.cast_ne_zero.mpr (by omega)
  have hovq : (ov : ℚ) ≠ 0 := Nat.cast_ne_zero.mpr (by omega)
  have hrate : ((update_compressors sr ov ratio a r scA am pd).1.spectral_compressors.getD i
      compressorDefault).sampleRate =
      sr / ((pd.fft_window_size : ℚ) / (ov : ℚ)) := by
    simp only [update_compressors]
    by_cases hsc : scA = true
    · rw [if_pos hsc, getD_map_of_lt _ _ _ _ compressorDefault hi]
    · rw [if_neg hsc]
      rw [getD_mapWithIndex _ 0 i _ compressorDefault compressorDefault
        (by rw [List.length_map]; exact hi)]
      rw [getD_map_of_lt _ _ _ _ compressorDefault hi]
  have heq1 : sr / ((pd.fft_window_size : ℚ) / (ov : ℚ)) =
      sr * ov / pd.fft_window_size := div_div_eq_mul_div sr _ _
  have heq2 : ((pd.fft_window_size / ov : Nat) : ℚ) =
      (pd.fft_window_size : ℚ) / (ov : ℚ) := Nat.cast_div hdvd hovq
  refine ⟨by rw [hrate, heq1], by rw [hrate, heq2], ?_⟩
  intro hlt hsr heq
  rw [hrate] at heq
  have hq : (pd.fft_window_size : ℚ) / (ov : ℚ) ≠ 0 := div_ne_zero hWq hovq
  rw [div_eq_iff hq] at heq
  nth_rewrite 1 [← mul_one sr] at heq
  have h1 : (1 : ℚ) = (pd.fft_window_size : ℚ) / (ov : ℚ) :=
    mul_left_cancel₀ (by positivity) heq
  rw [eq_comm, div_eq_one_iff_eq hovq] at h1
  have h2 : pd.fft_window_size = ov := Nat.cast_injective h1
  omega

/-- Witness for `c5_effective_sample_rate`: sample rate 48000, overlap 4,
window size 8, a bank of four compressors. -/
theorem c5_effective_sample_rate_witness :
    ((update_compressors 48000 4 50 50 5000 false true
        { freshWorkingSet 8 with
          spectral_compressors :=
            List.replicate 4 compressorDefault }).1.spectral_compressors.getD 0
        compressorDefault).sampleRate = 48000 * 4 / 8 ∧
    ((update_compressors 48000 4 50 50 5000 false true
        { freshWorkingSet 8 with
          spectral_compressors :=
            List.replicate 4 compressorDefault }).1.spectral_compressors.getD 0
        compressorDefault).sampleRate = 48000 / ((8 / 4 : Nat) : ℚ) := by
  have h := c5_effective_sample_rate 48000 4 50 50 5000 false true
    ({ freshWorkingSet 8 with
        spectral_compressors := List.replicate 4 compressorDefault }) 0
    (by decide) (by decide) (by decide) (by simp)
  exact ⟨h.1, h.2.1⟩

/-! ### C6: sidechain mean thresholds -/

theorem accumulate_sidechain_length (channels : Nat) (mag : Nat → Nat → ℝ)
    (acc : List ℝ) : (accumulate_sidechain channels mag acc).length = acc.length := by
  induction channels with
  | zero => rfl
  | succ n ih =>
      have hstep : accumulate_sidechain (n + 1) mag acc =
          mapWithIndex (fun idx v => v + mag n idx) 0
            (accumulate_sidechain n mag acc) := by
        simp [accumulate_sidechain, List.range_succ, List.foldl_append]
      rw [hstep, length_mapWithIndex, ih]

theorem accumulate_sidechain_getD (channels : Nat) (mag : Nat → Nat → ℝ)
    (acc : List ℝ) (i : Nat) (hi : i < acc.length) :
    (accumulate_sidechain channels mag acc).getD i 0 =
      acc.getD i 0 + ∑ ch ∈ Finset.range channels, mag ch i := by
  induction channels with
  | zero => simp [accumulate_sidechain]
  | succ n ih =>
      have hstep : accumulate_sidechain (n + 1) mag acc =
          mapWithIndex (fun idx v => v + mag n idx) 0
            (accumulate_sidechain n mag acc) := by
        simp [accumulate_sidechain, List.range_succ, List.foldl_append]
      rw [hstep, getD_mapWithIndex _ 0 i _ 0 0
        (by rw [accumulate_sidechain_length]; exact hi)]
      rw [Nat.zero_add, ih, Finset.sum_range_succ]
      ring

/-- C6: with the sidechain active, after accumulating each channel's per-bin
sidechain magnitudes into a zeroed accumulator, every usable bin's compressor
threshold is set to the arithmetic mean of that bin's magnitudes over all
input channels, and the accumulator is reset to zero afterwards; for a
channel-constant magnitude the threshold is that magnitude, independent of
the channel count. -/
theorem c6_sidechain_mean_threshold (channels : Nat) (mag : Nat → Nat → ℝ)
    (cs : List Compressor) (i : Nat) (hch : 0 < channels) (hi : i < cs.length) :
    ((set_thresholds_from_sidechain channels
          (accumulate_sidechain channels mag (List.replicate cs.length 0))
          cs).1.getD i compressorDefault).threshold =
      (∑ ch ∈ Finset.range channels, mag ch i) / channels ∧
    (set_thresholds_from_sidechain channels
        (accumulate_sidechain channels mag (List.replicate cs.length 0)) cs).2 =
      List.replicate cs.length 0 ∧
    (∀ m : Nat → ℝ, (∀ ch idx, mag ch idx = m idx) →
      ((set_thresholds_from_sidechain channels
            (accumulate_sidechain channels mag (List.replicate cs.length 0))
            cs).1.getD i compressorDefault).threshold = m i) := by
  have hacc : (accumulate_sidechain channels mag (List.replicate cs.length 0)).getD i 0 =
      ∑ ch ∈ Finset.range channels, mag ch i := by
    rw [accumulate_sidechain_getD _ _ _ _ (by simpa using hi), getD_replicate_zero]
    ring
  have hthr : ((set_thresholds_from_sidechain channels
        (accumulate_sidechain channels mag (List.replicate cs.length 0))
        cs).1.getD i compressorDefault).threshold =
      (∑ ch ∈ Finset.range channels, mag ch i) / channels := by
    unfold set_thresholds_from_sidechain
    rw [getD_mapWithIndex _ 0 i _ compressorDefault compressorDefault hi]
    simp only [Nat.zero_add]
    rw [hacc]
  refine ⟨hthr, ?_, ?_⟩
  · unfold set_thresholds_from_sidechain
    rw [accumulate_sidechain_length, List.length_replicate]
  · intro m hm
    rw [hthr]
    have hsum : (∑ ch ∈ Finset.range channels, mag ch i) = channels * m i := by
      rw [Finset.sum_congr rfl (fun ch _ => hm ch i)]
      rw [Finset.sum_const, Finset.card_range, nsmul_eq_mul]
    rw [hsum, mul_div_cancel_left₀ _ (Nat.cast_ne_zero.mpr (by omega))]

/-- Witness for `c6_sidechain_mean_threshold`: two channels, constant
magnitude 1 on every bin, a bank of one compressor. -/
theorem c6_sidechain_mean_threshold_witness :
    ((set_thresholds_from_sidechain 2
          (accumulate_sidechain 2 (fun _ _ => (1 : ℝ))
            (List.replicate [compressorDefault].length 0))
          [compressorDefault]).1.getD 0 compressorDefault).threshold =
      (∑ ch ∈ Finset.range 2, (1 : ℝ)) / 2 ∧
    ((set_thresholds_from_sidechain 2
          (accumulate_sidechain 2 (fun _ _ => (1 : ℝ))
            (List.replicate [compressorDefault].length 0))
          [compressorDefault]).1.getD 0 compressorDefault).threshold = 1 := by
  have h := c6_sidechain_mean_threshold 2 (fun _ _ => (1 : ℝ)) [compressorDefault] 0
    (by decide) (by simp)
  exact ⟨h.1, h.2.2 (fun _ => 1) (fun _ _ => rfl)⟩

/-! ### C7: per-bin compression scaling -/

theorem getD_set_self {β : Type} (l : List β) (i : Nat) (a d : β) (h : i < l.length) :
    (l.set i a).getD i d = a := by
  induction l generalizing i with
  | nil => simp at h
  | cons c cs ih =>
      cases i with
      | zero => rfl
      | succ i => simpa using ih i (by simpa using h)

theorem getD_set_ne {β : Type} (l : List β) (i j : Nat) (a d : β) (h : i ≠ j) :
    (l.set i a).getD j d = l.getD j d := by
  induction l generalizing i j with
  | nil => simp
  | cons c cs ih =>
      cases i with
      | zero =>
          cases j with
          | zero => exact absurd rfl h
          | succ j => rfl
      | succ i =>
          cases j with
          | zero => rfl
          | succ j =>
              simpa [List.getD_cons_succ] using ih i j (by omega)

theorem set_of_length_le {β : Type} (l : List β) (i : Nat) (a : β) (h : l.length ≤ i) :
    l.set i a = l := by
  induction l generalizing i with
  | nil => rfl
  | cons c cs ih =>
      cases i with
      | zero => simp at h
      | succ i => simpa using ih i (by simpa using h)

theorem compress_bins_succ (mag : ℚ × ℚ → ℚ) (process : Nat → ℚ → ℚ) (n : Nat)
    (buf : List (ℚ × ℚ)) :
    compress_bins mag process (n + 1) buf =
      (compress_bins mag process n buf).set (n + 1)
        ((if mag ((compress_bins mag process n buf).getD (n + 1) (0, 0)) ≠ 0 then
            process n (mag ((compress_bins mag process n buf).getD (n + 1) (0, 0))) /
              mag ((compress_bins mag process n buf).getD (n + 1) (0, 0))
          else 1) * ((compress_bins mag process n buf).getD (n + 1) (0, 0)).1,
         (if mag ((compress_bins mag process n buf).getD (n + 1) (0, 0)) ≠ 0 then
            process n (mag ((compress_bins mag process n buf).getD (n + 1) (0, 0))) /
              mag ((compress_bins mag process n buf).getD (n + 1) (0, 0))
          else 1) * ((compress_bins mag process n buf).getD (n + 1) (0, 0)).2) := by
  simp [compress_bins, List.range_succ]

theorem compress_bins_length (mag : ℚ × ℚ → ℚ) (process : Nat → ℚ → ℚ) (n : Nat)
    (buf : List (ℚ × ℚ)) : (compress_bins mag process n buf).length = buf.length := by
  induction n with
  | zero => rfl
  | succ n ih => rw [compress_bins_succ, List.length_set, ih]

theorem compress_bins_getD (mag : ℚ × ℚ → ℚ) (process : Nat → ℚ → ℚ) (n : Nat)
    (buf : List (ℚ × ℚ)) (j : Nat) :
    (compress_bins mag process n buf).getD j (0, 0) =
      if 1 ≤ j ∧ j ≤ n ∧ j < buf.length then
        ((if mag (buf.getD j (0, 0)) ≠ 0 then
            process (j - 1) (mag (buf.getD j (0, 0))) / mag (buf.getD j (0, 0))
          else 1) * (buf.getD j (0, 0)).1,
         (if mag (buf.getD j (0, 0)) ≠ 0 then
            process (j - 1) (mag (buf.getD j (0, 0))) / mag (buf.getD j (0, 0))
          else 1) * (buf.getD j (0, 0)).2)
      else buf.getD j (0, 0) := by
  induction n with
  | zero => rw [if_neg (by omega)]; rfl
  | succ n ih =>
      rw [compress_bins_succ]
      by_cases hj : j = n + 1
      · subst hj
        by_cases hlen : n + 1 < buf.length
        · rw [getD_set_self _ _ _ _ (by rw [compress_bins_length]; exact hlen)]
          have hmid := ih
          rw [if_neg (show ¬(1 ≤ n + 1 ∧ n + 1 ≤ n ∧ n + 1 < buf.length) by omega)] at hmid
          rw [hmid,
            if_pos (show 1 ≤ n + 1 ∧ n + 1 ≤ n + 1 ∧ n + 1 < buf.length by omega)]
          simp
        · rw [set_of_length_le _ _ _ (by rw [compress_bins_length]; omega)]
          rw [ih, if_neg (show ¬(1 ≤ n + 1 ∧ n + 1 ≤ n ∧ n + 1 < buf.length) by omega),
            if_neg (show ¬(1 ≤ n + 1 ∧ n + 1 ≤ n + 1 ∧ n + 1 < buf.length) by omega)]
      · rw [getD_set_ne _ _ _ _ _ (fun h => hj h.symm)]
        rw [ih]
        by_cases hc : 1 ≤ j ∧ j ≤ n ∧ j < buf.length
        · rw [if_pos hc, if_pos (show 1 ≤ j ∧ j ≤ n + 1 ∧ j < buf.length by omega)]
        · rw [if_neg hc,
            if_neg (show ¬(1 ≤ j ∧ j ≤ n + 1 ∧ j < buf.length) by omega)]

/-- C7: the per-bin compression loop, run with `window_size / 2` compressors
on an FFT buffer of `window_size` complex bins, scales exactly the bins with
index `1` through `window_size / 2`: both the real and the imaginary part of
such a bin are multiplied by `compressed_magnitude / magnitude` when the
magnitude is nonzero and by `1.0` when it is zero (no division by zero is
performed), while bin 0 (DC) and the mirrored upper half
(`window_size / 2 < j`) are never modified, and the buffer length is
unchanged. -/
theorem c7_bin_scaling (mag : ℚ × ℚ → ℚ) (process : Nat → ℚ → ℚ)
    (buf : List (ℚ × ℚ)) (W : Nat) (hlen : buf.length = W) (hW : 0 < W) :
    (compress_bins mag process (W / 2) buf).length = buf.length ∧
    (compress_bins mag process (W / 2) buf).getD 0 (0, 0) = buf.getD 0 (0, 0) ∧
    (∀ j, W / 2 < j →
      (compress_bins mag process (W / 2) buf).getD j (0, 0) = buf.getD j (0, 0)) ∧
    (∀ idx, idx < W / 2 →
      (compress_bins mag process (W / 2) buf).getD (idx + 1) (0, 0) =
        ((if mag (buf.getD (idx + 1) (0, 0)) ≠ 0 then
            process idx (mag (buf.getD (idx + 1) (0, 0))) /
              mag (buf.getD (idx + 1) (0, 0))
          else 1) * (buf.getD (idx + 1) (0, 0)).1,
         (if mag (buf.getD (idx + 1) (0, 0)) ≠ 0 then
            process idx (mag (buf.getD (idx + 1) (0, 0))) /
              mag (buf.getD (idx + 1) (0, 0))
          else 1) * (buf.getD (idx + 1) (0, 0)).2)) := by
  refine ⟨compress_bins_length mag process _ buf, ?_, ?_, ?_⟩
  · rw [compress_bins_getD, if_neg (by omega)]
  · intro j hj
    rw [compress_bins_getD, if_neg (by omega)]
  · intro idx hidx
    have hhalf : W / 2 < W := Nat.div_lt_self hW (by omega)
    rw [compress_bins_getD, if_pos (by omega)]
    simp

/-- Witness for `c7_bin_scaling`: a four-bin buffer (window size 4, two
compressors), with magnitude read off the real part and a compressor that
adds 1. -/
theorem c7_bin_scaling_witness :
    (compress_bins (fun z => z.1) (fun _ m => m + 1) (4 / 2)
        [(0, 0), (1, 2), (3, 4), (5, 6)]).length =
      ([(0, 0), (1, 2), (3, 4), (5, 6)] : List (ℚ × ℚ)).length ∧
    (compress_bins (fun z => z.1) (fun _ m => m + 1) (4 / 2)
        [(0, 0), (1, 2), (3, 4), (5, 6)]).getD 0 (0, 0) =
      ([(0, 0), (1, 2), (3, 4), (5, 6)] : List (ℚ × ℚ)).getD 0 (0, 0) := by
  have h := c7_bin_scaling (fun z => z.1) (fun _ m => m + 1)
    [(0, 0), (1, 2), (3, 4), (5, 6)] 4 (by simp) (by decide)
  exact ⟨h.1, h.2.1⟩

/-! ### C8: the static pink-noise threshold curve -/

/-- C8: with the sidechain inactive, `update_compressors` sets bin
`idx + 1`'s compressor threshold to
`(base_threshold + 3 dB) − 3 dB · log2(frequency + 2)` with
`frequency = sample_rate / window_size · (idx + 1)` (the bin's centre
frequency); and the curve is recomputed only under the
`compressor_settings_changed` flag — a block whose prelude sees the flag
cleared leaves the whole state untouched, so the curve is not recomputed
once per hop. -/
theorem c8_pink_noise_curve {α : Type} [Zero α] [Add α] [Mul α] (sr : ℚ) (ov : Nat)
    (ratio a r : ℚ) (am : Bool) (pd : ProcessData α) (i : Nat)
    (hi : i < pd.spectral_compressors.length) (s : PluginState α) :
    ((update_compressors sr ov ratio a r false am pd).1.spectral_compressors.getD i
        compressorDefault).threshold =
      ((0 : ℝ) + 3) - 3 * Real.logb 2
        ((((sr / (pd.fft_window_size : ℚ)) * ((i + 1 : ℕ) : ℚ) : ℚ) : ℝ) + 2) ∧
    (s.compressor_settings_changed = false →
      processBlockPrelude sr ov ratio a r false am s = s) := by
  constructor
  · simp only [update_compressors]
    rw [if_neg (by simp)]
    rw [getD_mapWithIndex _ 0 i _ compressorDefault compressorDefault
      (by rw [List.length_map]; exact hi)]
    simp
  · intro h
    simp [processBlockPrelude, h]

/-- Witness for `c8_pink_noise_curve`: sample rate 48000, window size 8, a
bank of one compressor, and a plugin state whose settings flag is clear. -/
theorem c8_pink_noise_curve_witness :
    ((update_compressors 48000 4 50 50 5000 false true
        { freshWorkingSet 8 with
          spectral_compressors := [compressorDefault] }).1.spectral_compressors.getD 0
        compressorDefault).threshold =
      ((0 : ℝ) + 3) - 3 * Real.logb 2
        ((((48000 / ((8 : Nat) : ℚ)) * ((0 + 1 : ℕ) : ℚ) : ℚ) : ℝ) + 2) ∧
    (processBlockPrelude 48000 4 50 50 5000 false true
        ⟨freshWorkingSet 8, false, 0⟩ = ⟨freshWorkingSet 8, false, 0⟩) := by
  have h := c8_pink_noise_curve 48000 4 50 50 5000 true
    ({ freshWorkingSet 8 with spectral_compressors := [compressorDefault] }) 0
    (by simp) (⟨freshWorkingSet 8, false, 0⟩ : PluginState ℤ)
  exact ⟨h.1, h.2 rfl⟩

/-! ### C9: the working-set rebuild resets the stream state -/

/-- C9: every working-set rebuild (`update_and_swap_process_data`, triggered
by a window-size change, `prepareToPlay` or `setStateInformation`) resets
`num_windows_processed` to 0 and sets `compressor_settings_changed`; hence
after the rebuild the driver's latency gate silences the output again until
`overlap_factor` windows have been processed (the first
`(overlap_factor − 1) · hop` samples), and the next `processBlock` prelude
reconfigures all compressors (ballistics and thresholds) and the makeup gain
before processing. -/
theorem c9_rebuild_resets {α : Type} [Zero α] [Add α] [Mul α] (fft_order ov : Nat)
    (s : PluginState α) (sr ratio a r : ℚ) (scA am : Bool) :
    (update_and_swap_process_data fft_order s).pd.num_windows_processed = 0 ∧
    (update_and_swap_process_data fft_order s).compressor_settings_changed = true ∧
    (∀ (sc : Bool) (P : ProcessData α → ProcessData α) (input sidechain : List α),
      (∀ q, (P q).num_windows_processed = q.num_windows_processed) →
      ∀ i, i < (ov - 1) *
          ((update_and_swap_process_data fft_order s).pd.fft_window_size / ov) →
        (do_stft ov sc P (update_and_swap_process_data fft_order s).pd
            input sidechain).2.getD i 0 = 0) ∧
    processBlockPrelude sr ov ratio a r scA am (update_and_swap_process_data fft_order s) =
      { pd := (update_compressors sr ov ratio a r scA am
            (update_and_swap_process_data fft_order s).pd).1,
        compressor_settings_changed := false,
        makeup_gain := (update_compressors sr ov ratio a r scA am
            (update_and_swap_process_data fft_order s).pd).2 } := by
  refine ⟨rfl, rfl, ?_, ?_⟩
  · intro sc P input sidechain hP_nwp
    exact do_stft_fresh_gated_silence ov sc P _ input sidechain rfl rfl hP_nwp
  · simp [processBlockPrelude, update_and_swap_process_data]

/-- Witness for `c9_rebuild_resets`: FFT order 2 (window size 4), overlap 2,
from a plugin state whose flag is clear. -/
theorem c9_rebuild_resets_witness :
    (update_and_swap_process_data 2
        (⟨freshWorkingSet 4, false, 0⟩ : PluginState ℤ)).pd.num_windows_processed = 0 ∧
    (update_and_swap_process_data 2
        (⟨freshWorkingSet 4, false, 0⟩ : PluginState ℤ)).compressor_settings_changed =
      true ∧
    (∀ (sc : Bool) (P : ProcessData ℤ → ProcessData ℤ) (input sidechain : List ℤ),
      (∀ q, (P q).num_windows_processed = q.num_windows_processed) →
      ∀ i, i < (2 - 1) *
          ((update_and_swap_process_data 2
              (⟨freshWorkingSet 4, false, 0⟩ : PluginState ℤ)).pd.fft_window_size / 2) →
        (do_stft 2 sc P
            (update_and_swap_process_data 2
              (⟨freshWorkingSet 4, false, 0⟩ : PluginState ℤ)).pd
            input sidechain).2.getD i 0 = 0) ∧
    processBlockPrelude 48000 2 50 50 5000 false true
        (update_and_swap_process_data 2 (⟨freshWorkingSet 4, false, 0⟩ : PluginState ℤ)) =
      { pd := (update_compressors 48000 2 50 50 5000 false true
            (update_and_swap_process_data 2
              (⟨freshWorkingSet 4, false, 0⟩ : PluginState ℤ)).pd).1,
        compressor_settings_changed := false,
        makeup_gain := (update_compressors 48000 2 50 50 5000 false true
            (update_and_swap_process_data 2
              (⟨freshWorkingSet 4, false, 0⟩ : PluginState ℤ)).pd).2 } :=
  c9_rebuild_resets 2 2 (⟨freshWorkingSet 4, false, 0⟩ : PluginState ℤ)
    48000 50 50 5000 false true

/-! ### C10: bypassed blocks leave the compressor state alone -/

theorem doWindows_compressors (ov : Nat) (sc : Bool) (P : ProcessData α → ProcessData α)
    (hop k : Nat) (pd : ProcessData α) (inp sci : List α)
    (hP : ∀ q, (P q).spectral_compressors = q.spectral_compressors) :
    (doWindows ov sc P hop k pd inp sci).1.spectral_compressors =
      pd.spectral_compressors := by
  induction k generalizing pd inp sci with
  | zero => rfl
  | succ k ih => simp [doWindows, ih, hP]

theorem do_stft_compressors (ov : Nat) (sc : Bool) (P : ProcessData α → ProcessData α)
    (pd : ProcessData α) (input sidechain : List α)
    (hP : ∀ q, (P q).spectral_compressors = q.spectral_compressors) :
    (do_stft ov sc P pd input sidechain).1.spectral_compressors =
      pd.spectral_compressors := by
  simp only [do_stft]
  rw [doWindows_compressors _ _ _ _ _ _ _ _ hP]
  split <;> split <;> simp

/-- C10: a bypassed block performs only the ring-buffer bookkeeping: it never
reads or clears the `compressor_settings_changed` flag, never calls
`update_compressors`, and leaves the compressor bank (ballistics, thresholds
and envelope state) and the makeup gain unchanged; a settings change that
arrives during bypass is applied at the start of the next non-bypassed
block's prelude, and a block whose prelude sees the flag clear changes
nothing. -/
theorem c10_bypassed_block (ov : Nat) (sc : Bool) (s : PluginState α)
    (input sidechain : List α) (sr ratio a r : ℚ) (scA am : Bool) :
    (processBlockBypassed ov sc s input sidechain).1.pd.spectral_compressors =
      s.pd.spectral_compressors ∧
    (processBlockBypassed ov sc s input sidechain).1.compressor_settings_changed =
      s.compressor_settings_changed ∧
    (processBlockBypassed ov sc s input sidechain).1.makeup_gain = s.makeup_gain ∧
    (s.compressor_settings_changed = true →
      processBlockPrelude sr ov ratio a r scA am s =
        { pd := (update_compressors sr ov ratio a r scA am s.pd).1,
          compressor_settings_changed := false,
          makeup_gain := (update_compressors sr ov ratio a r scA am s.pd).2 }) ∧
    (s.compressor_settings_changed = false →
      processBlockPrelude sr ov ratio a r scA am s = s) := by
  refine ⟨?_, rfl, rfl, ?_, ?_⟩
  · exact do_stft_compressors ov sc (bypass_fn ov) s.pd input sidechain (fun q => rfl)
  · intro h
    simp [processBlockPrelude, h]
  · intro h
    simp [processBlockPrelude, h]

/-- Witness for `c10_bypassed_block`: a bypassed block of four samples on a
fresh window-8 working set whose flag is clear. -/
theorem c10_bypassed_block_witness :
    (processBlockBypassed 2 false (⟨freshWorkingSet 8, false, 0⟩ : PluginState ℤ)
        (List.replicate 4 1) (List.replicate 4 0)).1.pd.spectral_compressors =
      (⟨freshWorkingSet 8, false, 0⟩ : PluginState ℤ).pd.spectral_compressors ∧
    (processBlockBypassed 2 false (⟨freshWorkingSet 8, false, 0⟩ : PluginState ℤ)
        (List.replicate 4 1) (List.replicate 4 0)).1.compressor_settings_changed =
      (⟨freshWorkingSet 8, false, 0⟩ : PluginState ℤ).compressor_settings_changed ∧
    processBlockPrelude 48000 2 50 50 5000 false true
        (⟨freshWorkingSet 8, false, 0⟩ : PluginState ℤ) =
      (⟨freshWorkingSet 8, false, 0⟩ : PluginState ℤ) := by
  have h := c10_bypassed_block 2 false (⟨freshWorkingSet 8, false, 0⟩ : PluginState ℤ)
    (List.replicate 4 1) (List.replicate 4 0) 48000 50 50 5000 false true
  exact ⟨h.1, h.2.1, h.2.2.2.2 rfl⟩

end DriverLemmas

end SpectralCompressor
